import Mathlib

/-!
# Verification of the BST static-site asset builder

Shallow embedding of the BST repository (`src/build.ts`, `src/src/index.ts`)
and proofs about its asset dependency resolution, build-deduplication and
reference-rewrite pipeline.

Conventions:
* Paths are POSIX-style strings.  The `node:path` functions used by the
  program (`join`, `normalize`, `relative`, `dirname`, `basename`, `extname`)
  are modelled at the character-list level for relative and absolute paths
  without trailing slashes; `path.relative` resolves both arguments against
  the process working directory, modelled here as the root `/` (the build
  only ever hands it paths inside the source tree, which never escape the
  working directory).
* External collaborators (HTML parser, sass compiler, Bun bundler,
  minifiers, the filesystem) are oracles: fields of explicit environment
  structures that the embedded orchestrator consumes.
-/

namespace BST

/-! ## Model of the `node:path` functions (external collaborator) -/

/-- A path segment, as a list of characters. -/
abbrev Seg := List Char

/-- Split a path string into its `/`-separated segments. -/
def segsOf (s : String) : List Seg := s.data.splitOn '/'

/-- Join segments back into a path string with `/` separators. -/
def unseg (l : List Seg) : String := ⟨List.intercalate ['/'] l⟩

/-- `node:path` segment normalization: drops empty and `.` segments and
resolves `..` against the accumulated stack (for absolute paths a `..` at
the top is dropped; for relative paths leading `..` segments survive).
`acc` is the reversed stack of segments already emitted. -/
def normAcc (abs : Bool) : List Seg → List Seg → List Seg
  | acc, [] => acc.reverse
  | acc, s :: rest =>
    if s = [] ∨ s = ['.'] then normAcc abs acc rest
    else if s = ['.', '.'] then
      match acc with
      | [] => normAcc abs (if abs then [] else [['.', '.']]) rest
      | t :: ts =>
        if t = ['.', '.'] then normAcc abs (s :: t :: ts) rest
        else normAcc abs ts rest
    else normAcc abs (s :: acc) rest

/-- First character is `/` (JS `src.startsWith('/')` on the one-character
string, and node's `isAbsolute` check of the first code unit). -/
def startsWithSlash (s : String) : Bool := s.data.head? == some '/'

/-- Model of `path.normalize` for slash-free-tail POSIX paths. -/
def pathNormalize (s : String) : String :=
  if s = "" then "." else
  let abs := startsWithSlash s
  let segs := normAcc abs [] (segsOf s)
  if abs then ⟨'/' :: List.intercalate ['/'] segs⟩
  else if segs = [] then "." else unseg segs

/-- Model of `path.join(a, b)`: concatenate with a separator and
normalize (empty arguments are skipped by node). -/
def pathJoin (a b : String) : String :=
  if a = "" then pathNormalize b
  else if b = "" then pathNormalize a
  else pathNormalize (a ++ "/" ++ b)

/-- Segments of `path.resolve(s)` with the working directory modelled as
the filesystem root. -/
def rootSegs (s : String) : List Seg := normAcc true [] (segsOf s)

/-- Length of the longest common leading run of two segment lists. -/
def sharedLeadLen : List Seg → List Seg → Nat
  | a :: as, b :: bs => if a = b then sharedLeadLen as bs + 1 else 0
  | _, _ => 0

/-- Model of `path.relative(p, q)`: resolve both, drop the common part,
climb with `..` and descend into the remainder. -/
def pathRelative (p q : String) : String :=
  let f := rootSegs p
  let t := rootSegs q
  let c := sharedLeadLen f t
  unseg (List.replicate (f.length - c) ['.', '.'] ++ t.drop c)

/-- Model of `path.dirname`. -/
def pathDirname (s : String) : String :=
  match (segsOf s).dropLast with
  | [] => "."
  | [[]] => "/"
  | l => unseg l

/-- Characters of the final path component (after the last `/`). -/
def baseChars (l : List Char) : List Char := (l.reverse.takeWhile (· ≠ '/')).reverse

/-- Model of `path.basename`. -/
def pathBasename (s : String) : String := ⟨baseChars s.data⟩

/-- Extension (including the dot) of a basename: everything from the last
`.`, empty when there is no dot or the only dot starts the name. -/
def extChars (b : List Char) : List Char :=
  let pre := b.reverse.takeWhile (· ≠ '.')
  if pre.length + 1 < b.length then '.' :: pre.reverse else []

/-- Model of `path.extname`. -/
def extname (s : String) : String := ⟨extChars (baseChars s.data)⟩

/-- `s` ends with the string `suf` (JS `endsWith` / an end-anchored regex
literal match), decided by comparing the final characters on the reversed
lists. -/
def sfx (s : String) (suf : String) : Bool :=
  s.data.reverse.take suf.data.length == suf.data.reverse

/-- Drop the last `n` characters of `s` and append `ext` (the effect of
`s.replace(/<suffix>$/, ext)` once the suffix of length `n` matched). -/
def chop (s : String) (n : Nat) (ext : String) : String :=
  ⟨s.data.take (s.data.length - n) ++ ext.data⟩

/-! ## `src/build.ts`: path mapping and output-path substitution -/

/-- `importMapper` from `src/build.ts`: absolute references pass through,
relative ones are joined with the owning document's directory. -/
def importMapper (base src : String) : String :=
  if startsWithSlash src then src else pathJoin base src

/-- `importDemapper` from `src/build.ts`. -/
def importDemapper (base src : String) : String := pathRelative base src

/-- `cssPath.replace(/\.(s[ac]|c)ss$/, '.css')` from `src/build.ts`. -/
def builtCssPath (p : String) : String :=
  if sfx p ".scss" then chop p 5 ".css"
  else if sfx p ".sass" then chop p 5 ".css"
  else if sfx p ".css" then chop p 4 ".css"
  else p

/-- `jsPath.replace(/\.tsx?$/, '.js')` from `src/build.ts`. -/
def builtJsPath (p : String) : String :=
  if sfx p ".tsx" then chop p 4 ".js"
  else if sfx p ".ts" then chop p 3 ".js"
  else p

/-! ## Clean segment lists and round-trip lemmas -/

/-- A segment that path normalization passes through unchanged: nonempty,
not `.` or `..`, and containing no separator. -/
def CleanSeg (seg : Seg) : Prop :=
  seg ≠ [] ∧ seg ≠ ['.'] ∧ seg ≠ ['.', '.'] ∧ '/' ∉ seg

/-- A nonempty list of clean segments. -/
def CleanSegs (l : List Seg) : Prop := l ≠ [] ∧ ∀ seg ∈ l, CleanSeg seg

instance : DecidablePred CleanSeg := fun _ => by unfold CleanSeg; infer_instance

instance : DecidablePred CleanSegs := fun _ => by unfold CleanSegs; infer_instance

theorem intercalate_cons {α : Type} (sep a : List α) (l : List (List α)) (h : l ≠ []) :
    sep.intercalate (a :: l) = a ++ sep ++ sep.intercalate l := by
  cases l with
  | nil => exact absurd rfl h
  | cons b t => simp [List.intercalate, List.append_assoc]

theorem intercalate_append {α : Type} (sep : List α) (l₁ l₂ : List (List α))
    (h₁ : l₁ ≠ []) (h₂ : l₂ ≠ []) :
    sep.intercalate (l₁ ++ l₂) = sep.intercalate l₁ ++ sep ++ sep.intercalate l₂ := by
  induction l₁ with
  | nil => exact absurd rfl h₁
  | cons a t ih =>
    cases t with
    | nil =>
      simp only [List.singleton_append]
      rw [intercalate_cons sep a l₂ h₂]
      simp [List.intercalate]
    | cons b t' =>
      have hne : (b :: t') ++ l₂ ≠ [] := by simp
      rw [List.cons_append, intercalate_cons sep a _ hne,
        intercalate_cons sep a (b :: t') (by simp), ih (by simp)]
      simp [List.append_assoc]

theorem unseg_append (l₁ l₂ : List Seg) (h₁ : l₁ ≠ []) (h₂ : l₂ ≠ []) :
    unseg l₁ ++ "/" ++ unseg l₂ = unseg (l₁ ++ l₂) := by
  show String.mk _ = String.mk _
  rw [intercalate_append ['/'] l₁ l₂ h₁ h₂]

theorem segsOf_unseg (l : List Seg) (h : CleanSegs l) : segsOf (unseg l) = l := by
  apply List.splitOn_intercalate
  · exact fun seg hs => (h.2 seg hs).2.2.2
  · exact h.1

theorem normAcc_clean (l : List Seg) (h : ∀ seg ∈ l, CleanSeg seg) :
    ∀ (abs : Bool) (acc : List Seg), normAcc abs acc l = acc.reverse ++ l := by
  induction l with
  | nil => intro abs acc; simp [normAcc]
  | cons s rest ih =>
    intro abs acc
    obtain ⟨h1, h2, h3, _⟩ := h s (List.mem_cons_self s rest)
    show (if s = [] ∨ s = ['.'] then normAcc abs acc rest
      else if s = ['.', '.'] then _ else normAcc abs (s :: acc) rest) = _
    rw [if_neg (by simp [h1, h2]), if_neg h3,
      ih (fun seg hs => h seg (List.mem_cons_of_mem s hs)) abs (s :: acc)]
    simp

theorem unseg_head (l : List Seg) (h : CleanSegs l) :
    startsWithSlash (unseg l) = false ∧ unseg l ≠ "" := by
  obtain ⟨hne, hall⟩ := h
  cases l with
  | nil => exact absurd rfl hne
  | cons s rest =>
    obtain ⟨h1, _, _, h4⟩ := hall s (List.mem_cons_self s rest)
    cases s with
    | nil => exact absurd rfl h1
    | cons c cs =>
      have hc : c ≠ '/' := fun hc => h4 (hc ▸ List.mem_cons_self c cs)
      have hdata : (unseg ((c :: cs) :: rest)).data.head? = some c := by
        cases rest with
        | nil => simp [unseg, List.intercalate]
        | cons b t =>
          rw [unseg, intercalate_cons ['/'] _ (b :: t) (by simp)]
          simp
      constructor
      · simp only [startsWithSlash, hdata, beq_iff_eq, Option.some.injEq]
        exact decide_eq_false hc
      · intro hempty
        rw [hempty] at hdata
        simp at hdata

theorem sharedLeadLen_self_append (l₁ l₂ : List Seg) :
    sharedLeadLen l₁ (l₁ ++ l₂) = l₁.length := by
  induction l₁ with
  | nil => cases l₂ <;> simp [sharedLeadLen]
  | cons a t ih => simp [sharedLeadLen, ih]

theorem cleanSegs_append {l₁ l₂ : List Seg} (h₁ : CleanSegs l₁) (h₂ : CleanSegs l₂) :
    CleanSegs (l₁ ++ l₂) := by
  refine ⟨by simp [h₁.1], fun seg hs => ?_⟩
  rcases List.mem_append.mp hs with h | h
  · exact h₁.2 seg h
  · exact h₂.2 seg h

theorem pathNormalize_unseg (l : List Seg) (h : CleanSegs l) :
    pathNormalize (unseg l) = unseg l := by
  obtain ⟨hslash, hne⟩ := unseg_head l h
  rw [pathNormalize, if_neg hne]
  simp only [hslash, segsOf_unseg l h,
    normAcc_clean l h.2 false [], List.reverse_nil, List.nil_append]
  rw [if_neg (by simp), if_neg h.1]

theorem rootSegs_unseg (l : List Seg) (h : CleanSegs l) : rootSegs (unseg l) = l := by
  rw [rootSegs, segsOf_unseg l h, normAcc_clean l h.2 true []]
  simp

/-- **C9, general part.** For any owning directory and reference made of
clean path segments, `importMapper` joins and normalizes, and
`importDemapper` recovers exactly the original reference. -/
theorem demap_map_roundtrip (bs ss : List Seg) (base src : String)
    (hbase : base = unseg bs) (hsrc : src = unseg ss)
    (hb : CleanSegs bs) (hs : CleanSegs ss) :
    importMapper base src = unseg (bs ++ ss) ∧
      importDemapper base (importMapper base src) = src := by
  subst hbase; subst hsrc
  have hmap : importMapper (unseg bs) (unseg ss) = unseg (bs ++ ss) := by
    rw [importMapper, if_neg (by simp [(unseg_head ss hs).1])]
    rw [pathJoin, if_neg (unseg_head bs hb).2, if_neg (unseg_head ss hs).2,
      unseg_append bs ss hb.1 hs.1, pathNormalize_unseg _ (cleanSegs_append hb hs)]
  refine ⟨hmap, ?_⟩
  rw [hmap, importDemapper, pathRelative]
  simp only [rootSegs_unseg bs hb, rootSegs_unseg _ (cleanSegs_append hb hs),
    sharedLeadLen_self_append, Nat.sub_self, List.replicate_zero, List.nil_append,
    List.drop_left]

/-- **C9.** Reference path mapping and demapping round-trip: mapping a
non-absolute reference joins it with the owning document's directory and
normalizes it, demapping computes the relative path back; concretely,
rewriting reference `a/b.scss` to `a/b.css` and demapping from a document
at `a/` yields exactly `b.css`. -/
theorem c9_reference_roundtrip :
    (∀ (bs ss : List Seg) (base src : String),
      base = unseg bs → src = unseg ss → CleanSegs bs → CleanSegs ss →
      importMapper base src = unseg (bs ++ ss) ∧
        importDemapper base (importMapper base src) = src)
    ∧ importMapper "a" "b.scss" = "a/b.scss"
    ∧ builtCssPath "a/b.scss" = "a/b.css"
    ∧ importDemapper "a" "a/b.css" = "b.css" :=
  ⟨demap_map_roundtrip, by decide, by decide, by decide⟩

/-- Witness for C9: the round-trip theorem applied to the concrete owning
directory `a` and reference `b.css`. -/
theorem c9_reference_roundtrip_witness :
    importMapper "a" "b.css" = unseg ([['a']] ++ [['b', '.', 'c', 's', 's']]) ∧
      importDemapper "a" (importMapper "a" "b.css") = "b.css" :=
  c9_reference_roundtrip.1 [['a']] [['b', '.', 'c', 's', 's']] "a" "b.css"
    (by decide) (by decide) (by decide) (by decide)

/-! ## Model of the parsed document tree (domhandler collaborator)

A document is a list of nodes; an element carries its tag name, its
attributes (an object modelled as an insertion-ordered association list
with unique keys) and its children. -/

inductive HNode where
  | elem (name : String) (attrs : List (String × String)) (children : List HNode)
  | text (s : String)

abbrev Html := List HNode

/-- Attribute access `node.attribs[k]` (`undefined` becomes `none`). -/
def getAttr (attrs : List (String × String)) (k : String) : Option String :=
  attrs.lookup k

/-- JS object/property assignment `m[k] = v`: updates the value in place
when the key exists (keeping its position), appends otherwise.  Shared by
the attribute model and by the `builtFiles` record of `src/build.ts`. -/
def setKey {α β : Type} [BEq α] (m : List (α × β)) (k : α) (v : β) : List (α × β) :=
  if (m.lookup k).isSome then m.map (fun p => if p.1 == k then (k, v) else p)
  else m ++ [(k, v)]

/-- Predicate of `getCSSElements` (`src/src/index.ts`):
`node.name === 'link' && node.attribs.rel === 'stylesheet'`. -/
def isStylesheetLink (name : String) (attrs : List (String × String)) : Bool :=
  name == "link" && getAttr attrs "rel" == some "stylesheet"

/-- Predicate of `getJSElements` (`src/src/index.ts`):
`node.tagName === 'script' && DomUtils.hasAttrib(node, 'src')`. -/
def isScriptWithSrc (name : String) (attrs : List (String × String)) : Bool :=
  name == "script" && (getAttr attrs "src").isSome

mutual

/-- `DomUtils.findAll` over one node: document-order collection of the
elements satisfying the predicate (text nodes are skipped, children of a
match are still traversed). -/
def findAllN (p : String → List (String × String) → Bool) : HNode → List HNode
  | .elem n a c => (if p n a then [HNode.elem n a c] else []) ++ findAllL p c
  | .text _ => []

/-- `DomUtils.findAll` over a node list. -/
def findAllL (p : String → List (String × String) → Bool) : List HNode → List HNode
  | [] => []
  | n :: rest => findAllN p n ++ findAllL p rest

end

/-- `getCSSElements` from `src/src/index.ts`. -/
def getCSSElements (doc : Html) : List HNode := findAllL isStylesheetLink doc

/-- `getJSElements` from `src/src/index.ts`. -/
def getJSElements (doc : Html) : List HNode := findAllL isScriptWithSrc doc

/-- Attribute of a node (`none` on text nodes). -/
def nodeAttr (n : HNode) (k : String) : Option String :=
  match n with
  | .elem _ a _ => getAttr a k
  | .text _ => none

/-- `getCSSImports`: hrefs of the stylesheet links, `path.normalize`d.
Every collected element is a stylesheet link; a missing `href` (on which
the JS would crash inside `path.normalize`) is modelled as `""`. -/
def getCSSImports (doc : Html) : List String :=
  (getCSSElements doc).map (fun n => pathNormalize ((nodeAttr n "href").getD ""))

/-- `getJSImports`: the `src` attributes (present by the predicate),
`path.normalize`d. -/
def getJSImports (doc : Html) : List String :=
  (getJSElements doc).map (fun n => pathNormalize ((nodeAttr n "src").getD ""))

mutual

/-- `replaceCSSImports` on one node: a stylesheet link whose stored
`href` is exactly `original` gets `href` set to `replaced`; the
comparison is the raw `element.attribs.href === original` of the source,
with no normalization at comparison time. -/
def replaceCSSImportsN (original replaced : String) : HNode → HNode
  | .elem n a c =>
    let a' := if isStylesheetLink n a && (getAttr a "href" == some original)
      then setKey a "href" replaced else a
    .elem n a' (replaceCSSImportsL original replaced c)
  | .text s => .text s

def replaceCSSImportsL (original replaced : String) : List HNode → List HNode
  | [] => []
  | n :: rest =>
    replaceCSSImportsN original replaced n :: replaceCSSImportsL original replaced rest

end

/-- `replaceCSSImports` from `src/src/index.ts`. -/
def replaceCSSImports (doc : Html) (original replaced : String) : Html :=
  replaceCSSImportsL original replaced doc

mutual

/-- `replaceJSImports` on one node (raw `element.attribs.src === original`
comparison, as in the source). -/
def replaceJSImportsN (original replaced : String) : HNode → HNode
  | .elem n a c =>
    let a' := if isScriptWithSrc n a && (getAttr a "src" == some original)
      then setKey a "src" replaced else a
    .elem n a' (replaceJSImportsL original replaced c)
  | .text s => .text s

def replaceJSImportsL (original replaced : String) : List HNode → List HNode
  | [] => []
  | n :: rest =>
    replaceJSImportsN original replaced n :: replaceJSImportsL original replaced rest

end

/-- `replaceJSImports` from `src/src/index.ts`. -/
def replaceJSImports (doc : Html) (original replaced : String) : Html :=
  replaceJSImportsL original replaced doc

/-- The preload link built by `convertCSSToNonBlocking` (attribute
insertion order as in the source; backticks in the handler because single
and double quotes are HTML-escaped by the serializer). -/
def preloadLink (href : String) : HNode :=
  .elem "link"
    [("rel", "preload"), ("href", href), ("as", "style"),
      ("onload", "this.onload=null;this.rel=`stylesheet`")] []

/-- The `noscript`-wrapped fallback stylesheet link built by
`convertCSSToNonBlocking`. -/
def noscriptFallback (href : String) : HNode :=
  .elem "noscript" [] [.elem "link" [("rel", "stylesheet"), ("href", href)] []]

mutual

/-- `convertCSSToNonBlocking` on one node.  The source runs
`DomUtils.append(element, preload); DomUtils.append(element, noscript);
DomUtils.removeElement(element)`; `DomUtils.append(e, x)` inserts `x`
directly after `e`, so the second call puts `noscript` between the
element and the already-inserted `preload`, and after removal the
document order is `[noscript, preload]`.  Stylesheet links are void
elements, so dropping the matched node's subtree is exact. -/
def convertCSSN : HNode → List HNode
  | .elem n a c =>
    if isStylesheetLink n a then
      let href := (getAttr a "href").getD ""
      [noscriptFallback href, preloadLink href]
    else [.elem n a (convertCSSL c)]
  | .text s => [.text s]

def convertCSSL : List HNode → List HNode
  | [] => []
  | n :: rest => convertCSSN n ++ convertCSSL rest

end

/-- `convertCSSToNonBlocking` from `src/src/index.ts`. -/
def convertCSSToNonBlocking (doc : Html) : Html := convertCSSL doc

mutual

/-- `convertJSToNonBlocking` (invoked by `src/build.ts`; its definition in
`src/src/index.ts` sets `element.attribs.async = ''` on every script
element with a `src`). -/
def convertJSN : HNode → HNode
  | .elem n a c =>
    let a' := if isScriptWithSrc n a then setKey a "async" "" else a
    .elem n a' (convertJSL c)
  | .text s => .text s

def convertJSL : List HNode → List HNode
  | [] => []
  | n :: rest => convertJSN n :: convertJSL rest

end

/-- `convertJSToNonBlocking`. -/
def convertJSToNonBlocking (doc : Html) : Html := convertJSL doc

/-! ## Class-attribute normalization (`uniq` and `getHTML`'s pass) -/

/-- `uniq` from `src/src/index.ts`: `Array.from(new Set(arr))` — a JS
`Set` iterates in first-insertion order. -/
def uniq {α : Type} [DecidableEq α] (l : List α) : List α :=
  l.foldl (fun acc a => if a ∈ acc then acc else acc ++ [a]) []

/-- The per-attribute normalization of `getHTML`:
`node.attribs.class.split(' ')`, `uniq`, `join(' ')`.  JS
`String.split(' ')` cuts at every single space character. -/
def normalizeClass (s : String) : String :=
  ⟨List.intercalate [' '] (uniq (s.data.splitOn ' '))⟩

mutual

/-- `getHTML`'s class-normalization pass on one node: every node carrying
a `class` attribute has it rewritten through `normalizeClass`. -/
def normalizeClassN : HNode → HNode
  | .elem n a c =>
    let a' := if (getAttr a "class").isSome
      then setKey a "class" (normalizeClass ((getAttr a "class").getD "")) else a
    .elem n a' (normalizeClassL c)
  | .text s => .text s

def normalizeClassL : List HNode → List HNode
  | [] => []
  | n :: rest => normalizeClassN n :: normalizeClassL rest

end

/-- The class-normalization pass of `getHTML` over a whole document. -/
def normalizeClassAttrs (doc : Html) : Html := normalizeClassL doc

/-! ## Properties of `uniq`, `setKey` and class normalization -/

theorem uniq_decomp {α : Type} [DecidableEq α] (l acc : List α) :
    ∃ t, List.foldl (fun acc a => if a ∈ acc then acc else acc ++ [a]) acc l = acc ++ t ∧
      t.Sublist l ∧ (∀ x ∈ t, x ∉ acc) ∧ (acc.Nodup → (acc ++ t).Nodup) := by
  induction l generalizing acc with
  | nil => exact ⟨[], by simp, List.Sublist.refl _, by simp,
      fun h => (List.append_nil acc).symm ▸ h⟩
  | cons a l ih =>
    by_cases ha : a ∈ acc
    · obtain ⟨t, h1, h2, h3, h4⟩ := ih acc
      exact ⟨t, by simpa [ha] using h1, h2.cons a, h3, h4⟩
    · obtain ⟨t, h1, h2, h3, h4⟩ := ih (acc ++ [a])
      refine ⟨a :: t, ?_, h2.cons₂ a, ?_, ?_⟩
      · rw [List.foldl_cons, if_neg ha, h1, List.append_assoc, List.singleton_append]
      · intro x hx
        rcases List.mem_cons.mp hx with rfl | hx
        · exact ha
        · exact fun hxa => h3 x hx (List.mem_append_left _ hxa)
      · intro hnd
        have hnd' : (acc ++ [a]).Nodup := by
          rw [List.nodup_append]
          exact ⟨hnd, List.nodup_singleton a,
            fun x hx hxa => ha (List.mem_singleton.mp hxa ▸ hx)⟩
        have := h4 hnd'
        rwa [List.append_assoc, List.singleton_append] at this

theorem uniq_nodup {α : Type} [DecidableEq α] (l : List α) : (uniq l).Nodup := by
  obtain ⟨t, h1, _, _, h4⟩ := uniq_decomp l []
  rw [uniq, h1, List.nil_append]
  simpa using h4 List.nodup_nil

theorem uniq_sublist {α : Type} [DecidableEq α] (l : List α) : (uniq l).Sublist l := by
  obtain ⟨t, h1, h2, _, _⟩ := uniq_decomp l []
  rw [uniq, h1, List.nil_append]
  exact h2

theorem uniq_mem_aux {α : Type} [DecidableEq α] (l : List α) :
    ∀ (acc : List α) (x : α),
      x ∈ List.foldl (fun acc a => if a ∈ acc then acc else acc ++ [a]) acc l ↔
        x ∈ acc ∨ x ∈ l := by
  induction l with
  | nil => simp
  | cons a l ih =>
    intro acc x
    by_cases ha : a ∈ acc
    · rw [List.foldl_cons, if_pos ha, ih]
      constructor
      · rintro (h | h)
        · exact Or.inl h
        · exact Or.inr (List.mem_cons_of_mem a h)
      · rintro (h | h)
        · exact Or.inl h
        · rcases List.mem_cons.mp h with rfl | h
          · exact Or.inl ha
          · exact Or.inr h
    · rw [List.foldl_cons, if_neg ha, ih]
      constructor
      · rintro (h | h)
        · rcases List.mem_append.mp h with h | h
          · exact Or.inl h
          · exact Or.inr (List.mem_cons.mpr (Or.inl (List.mem_singleton.mp h)))
        · exact Or.inr (List.mem_cons_of_mem a h)
      · rintro (h | h)
        · exact Or.inl (List.mem_append_left _ h)
        · rcases List.mem_cons.mp h with rfl | h
          · exact Or.inl (List.mem_append_right _ (List.mem_singleton_self x))
          · exact Or.inr h

theorem uniq_mem {α : Type} [DecidableEq α] (l : List α) (x : α) :
    x ∈ uniq l ↔ x ∈ l := by
  rw [uniq, uniq_mem_aux]
  simp

theorem uniq_of_nodup_aux {α : Type} [DecidableEq α] (l : List α) :
    ∀ acc : List α, (∀ x ∈ l, x ∉ acc) → l.Nodup →
      List.foldl (fun acc a => if a ∈ acc then acc else acc ++ [a]) acc l = acc ++ l := by
  induction l with
  | nil => simp
  | cons a l ih =>
    intro acc hdisj hnd
    have ha : a ∉ acc := hdisj a (List.mem_cons_self a l)
    rw [List.foldl_cons, if_neg ha, ih (acc ++ [a]) ?_ (List.Nodup.of_cons hnd)]
    · rw [List.append_assoc, List.singleton_append]
    · intro x hx
      simp only [List.mem_append, List.mem_singleton]
      rintro (h | rfl)
      · exact hdisj x (List.mem_cons_of_mem a hx) h
      · exact (List.nodup_cons.mp hnd).1 hx

theorem uniq_of_nodup {α : Type} [DecidableEq α] (l : List α) (h : l.Nodup) :
    uniq l = l := by
  rw [uniq, uniq_of_nodup_aux l [] (by simp) h, List.nil_append]

theorem uniq_idem {α : Type} [DecidableEq α] (l : List α) : uniq (uniq l) = uniq l :=
  uniq_of_nodup _ (uniq_nodup l)

theorem uniq_congr_acc {α : Type} [DecidableEq α] (l : List α) :
    ∀ (acc₁ acc₂ t : List α), (∀ x ∈ l, (x ∈ acc₁ ↔ x ∈ acc₂)) →
      List.foldl (fun acc a => if a ∈ acc then acc else acc ++ [a]) acc₁ l = acc₁ ++ t →
      List.foldl (fun acc a => if a ∈ acc then acc else acc ++ [a]) acc₂ l = acc₂ ++ t := by
  induction l with
  | nil =>
    intro acc₁ acc₂ t _ h
    simp only [List.foldl_nil] at h ⊢
    have ht : t = [] := List.self_eq_append_right.mp h
    simp [ht]
  | cons a l ih =>
    intro acc₁ acc₂ t hmem h
    have hhead := hmem a (List.mem_cons_self a l)
    by_cases ha : a ∈ acc₁
    · rw [List.foldl_cons, if_pos ha] at h
      rw [List.foldl_cons, if_pos (hhead.mp ha)]
      exact ih acc₁ acc₂ t (fun x hx => hmem x (List.mem_cons_of_mem a hx)) h
    · have ha₂ : a ∉ acc₂ := fun hc => ha (hhead.mpr hc)
      rw [List.foldl_cons, if_neg ha] at h
      rw [List.foldl_cons, if_neg ha₂]
      obtain ⟨t', h1, _, _, _⟩ := uniq_decomp l (acc₁ ++ [a])
      have ht : t = a :: t' := by
        have := h1.symm.trans h
        rw [List.append_assoc, List.singleton_append] at this
        exact (List.append_cancel_left this).symm
      have h2 := ih (acc₁ ++ [a]) (acc₂ ++ [a]) t' ?_ h1
      · rw [h2, List.append_assoc, List.singleton_append, ht]
      · intro x hx
        simp only [List.mem_append, List.mem_singleton]
        exact or_congr_left (hmem x (List.mem_cons_of_mem a hx))

theorem uniq_skip_mem {α : Type} [DecidableEq α] (l : List α) :
    ∀ (acc : List α) (a : α), a ∈ acc →
      List.foldl (fun acc a => if a ∈ acc then acc else acc ++ [a]) acc l =
        List.foldl (fun acc a => if a ∈ acc then acc else acc ++ [a]) acc
          (l.filter (· ≠ a)) := by
  induction l with
  | nil => simp
  | cons x l ih =>
    intro acc a ha
    by_cases hxa : x = a
    · subst hxa
      have : (x :: l).filter (· ≠ x) = l.filter (· ≠ x) := by simp
      rw [this, List.foldl_cons, if_pos ha, ih acc x ha]
    · have : (x :: l).filter (· ≠ a) = x :: l.filter (· ≠ a) := by
        simp [List.filter_cons, hxa]
      rw [this, List.foldl_cons, List.foldl_cons]
      by_cases hx : x ∈ acc
      · rw [if_pos hx]
        exact ih acc a ha
      · rw [if_neg hx]
        exact ih (acc ++ [x]) a (List.mem_append_left _ ha)

/-- First-occurrence semantics of `uniq`: the head stays first and all of
its later duplicates are removed. -/
theorem uniq_cons {α : Type} [DecidableEq α] (a : α) (l : List α) :
    uniq (a :: l) = a :: uniq (l.filter (· ≠ a)) := by
  rw [uniq, List.foldl_cons, if_neg (List.not_mem_nil a), List.nil_append,
    uniq_skip_mem l [a] a (List.mem_singleton_self a)]
  obtain ⟨t, h1, _, _, _⟩ := uniq_decomp (l.filter (· ≠ a)) []
  have h2 := uniq_congr_acc (l.filter (· ≠ a)) [] [a] t ?_ h1
  · rw [h2, uniq, h1]
    simp
  · intro x hx
    have : x ≠ a := by
      have := List.of_mem_filter hx
      simpa using this
    simp [this]

theorem splitOn_sep_not_mem {α : Type} [DecidableEq α] (x : α) (l : List α) :
    ∀ p ∈ l.splitOn x, x ∉ p := by
  induction l with
  | nil =>
    intro p hp
    rw [List.splitOn_nil] at hp
    simp only [List.mem_singleton] at hp
    subst hp
    exact List.not_mem_nil x
  | cons a l ih =>
    intro p hp
    by_cases hax : a = x
    · subst hax
      simp only [List.splitOn, List.splitOnP_cons, beq_self_eq_true, if_pos] at hp
      rcases List.mem_cons.mp hp with rfl | hp
      · exact List.not_mem_nil a
      · exact ih p hp
    · have hbeq : (a == x) = false := beq_eq_false_iff_ne.mpr hax
      simp only [List.splitOn, List.splitOnP_cons, hbeq, if_neg Bool.false_ne_true] at hp
      rcases hsp : List.splitOnP (· == x) l with _ | ⟨h, t⟩
      · exact absurd hsp (List.splitOnP_ne_nil _ l)
      · rw [hsp] at hp
        simp only [List.modifyHead, List.mem_cons] at hp
        rcases hp with rfl | hp
        · intro hc
          rcases List.mem_cons.mp hc with rfl | hc
          · exact hax rfl
          · exact ih h (by rw [List.splitOn, hsp]; exact List.mem_cons_self h t) hc
        · exact ih p (by rw [List.splitOn, hsp]; exact List.mem_cons_of_mem h hp)

theorem splitOn_ne_nil {α : Type} [DecidableEq α] (x : α) (l : List α) :
    l.splitOn x ≠ [] := List.splitOnP_ne_nil _ l

/-- The tokens of a normalized class attribute are exactly the
deduplicated tokens of the original. -/
theorem normalizeClass_tokens (s : String) :
    (normalizeClass s).data.splitOn ' ' = uniq (s.data.splitOn ' ') := by
  show (List.intercalate [' '] (uniq (s.data.splitOn ' '))).splitOn ' ' = _
  apply List.splitOn_intercalate
  · intro p hp
    exact splitOn_sep_not_mem ' ' s.data p ((uniq_mem _ p).mp hp)
  · intro hc
    rcases hsp : s.data.splitOn ' ' with _ | ⟨h, t⟩
    · exact splitOn_ne_nil ' ' s.data hsp
    · have : h ∈ uniq (s.data.splitOn ' ') :=
        (uniq_mem _ h).mpr (by rw [hsp]; exact List.mem_cons_self h t)
      rw [hc] at this
      exact List.not_mem_nil h this

theorem normalizeClass_idem (s : String) :
    normalizeClass (normalizeClass s) = normalizeClass s := by
  show String.mk (List.intercalate [' '] (uniq ((normalizeClass s).data.splitOn ' '))) = _
  rw [normalizeClass_tokens, uniq_idem]
  rfl

theorem setKey_present {α β : Type} [BEq α] (m : List (α × β)) (k : α) (v : β)
    (hp : (m.lookup k).isSome) :
    setKey m k v = m.map (fun p => if p.1 == k then (k, v) else p) := by
  unfold setKey
  rw [if_pos hp]

theorem setKey_absent {α β : Type} [BEq α] (m : List (α × β)) (k : α) (v : β)
    (hp : ¬(m.lookup k).isSome) : setKey m k v = m ++ [(k, v)] := by
  unfold setKey
  rw [if_neg hp]

theorem lookup_setKey {α β : Type} [BEq α] [LawfulBEq α] (m : List (α × β)) (k : α) (v : β) :
    (setKey m k v).lookup k = some v := by
  by_cases hp : (m.lookup k).isSome
  · rw [setKey_present m k v hp]
    induction m with
    | nil => simp [List.lookup] at hp
    | cons p t ih =>
      obtain ⟨k₁, v₁⟩ := p
      by_cases hk : k = k₁
      · subst hk
        rw [List.map_cons, if_pos (by simp : (((k, v₁) : α × β).1 == k) = true)]
        simp [List.lookup]
      · have h1 : (k == k₁) = false := beq_eq_false_iff_ne.mpr hk
        have h2 : (k₁ == k) = false := beq_eq_false_iff_ne.mpr (Ne.symm hk)
        simp only [List.lookup, h1] at hp
        rw [List.map_cons,
          if_neg (by simp [h2] : ¬(((k₁, v₁) : α × β).1 == k) = true)]
        simp only [List.lookup, h1]
        exact ih hp
  · rw [setKey_absent m k v hp]
    induction m with
    | nil => simp [List.lookup]
    | cons p t ih =>
      obtain ⟨k₁, v₁⟩ := p
      by_cases hk : k = k₁
      · subst hk
        simp [List.lookup] at hp
      · have h1 : (k == k₁) = false := beq_eq_false_iff_ne.mpr hk
        simp only [List.lookup, h1] at hp
        simpa [List.lookup, h1] using ih hp

theorem lookup_none_keys {α β : Type} [BEq α] [LawfulBEq α] {m : List (α × β)} {k : α}
    (h : m.lookup k = none) : ∀ p ∈ m, (p.1 == k) = false := by
  induction m with
  | nil => simp
  | cons p t ih =>
    obtain ⟨k₁, v₁⟩ := p
    intro q hq
    by_cases hk : k = k₁
    · subst hk
      simp [List.lookup] at h
    · have h1 : (k == k₁) = false := beq_eq_false_iff_ne.mpr hk
      simp only [List.lookup, h1] at h
      rcases List.mem_cons.mp hq with rfl | hq
      · exact beq_eq_false_iff_ne.mpr (Ne.symm hk)
      · exact ih h q hq

theorem setKey_setKey {α β : Type} [BEq α] [LawfulBEq α] (m : List (α × β)) (k : α) (v : β) :
    setKey (setKey m k v) k v = setKey m k v := by
  have hl : ((setKey m k v).lookup k).isSome := by rw [lookup_setKey]; rfl
  rw [setKey_present (setKey m k v) k v hl]
  by_cases hp : (m.lookup k).isSome
  · rw [setKey_present m k v hp, List.map_map]
    apply List.map_congr_left
    intro p _
    by_cases hk : (p.1 == k) = true
    · simp [Function.comp, hk]
    · simp only [Bool.not_eq_true] at hk
      simp [Function.comp, hk]
  · rw [setKey_absent m k v hp, List.map_append]
    have hm : m.map (fun p => if p.1 == k then (k, v) else p) = m := by
      have h0 : ∀ p ∈ m, (if p.1 == k then (k, v) else p) = p := by
        intro p hpm
        rw [lookup_none_keys (Option.not_isSome_iff_eq_none.mp hp) p hpm]
        simp
      calc m.map (fun p => if p.1 == k then (k, v) else p) = m.map id :=
            List.map_congr_left h0
        _ = m := List.map_id m
    rw [hm]
    simp

mutual

theorem normalizeClassN_idem : (nd : HNode) →
    normalizeClassN (normalizeClassN nd) = normalizeClassN nd
  | .elem n a c => by
    rw [normalizeClassN]
    by_cases hcl : (getAttr a "class").isSome
    · rw [if_pos hcl, normalizeClassN]
      have hval : getAttr (setKey a "class"
          (normalizeClass ((getAttr a "class").getD ""))) "class"
          = some (normalizeClass ((getAttr a "class").getD "")) := lookup_setKey _ _ _
      rw [if_pos (by rw [hval]; rfl), hval]
      rw [normalizeClassL_idem c]
      have : (some (normalizeClass ((getAttr a "class").getD ""))).getD ""
          = normalizeClass ((getAttr a "class").getD "") := rfl
      rw [this, normalizeClass_idem, setKey_setKey]
    · rw [if_neg hcl, normalizeClassN, if_neg hcl, normalizeClassL_idem c]
  | .text s => rfl

theorem normalizeClassL_idem : (l : List HNode) →
    normalizeClassL (normalizeClassL l) = normalizeClassL l
  | [] => rfl
  | n :: rest => by
    rw [normalizeClassL, normalizeClassL, normalizeClassN_idem n, normalizeClassL_idem rest]

end

/-- HTML whitespace characters (space, tab, LF, FF, CR). -/
def isHtmlWhitespace (c : Char) : Bool :=
  c = ' ' || c = '\t' || c = '\n' || c = '\u000C' || c = '\r'

/-- Modelled from the claim's words, for comparison with the source's
`normalizeClass`: the whitespace-separated class tokens of an attribute
value are the maximal nonempty runs between whitespace characters. -/
def wsClassTokens (s : String) : List (List Char) :=
  (s.data.splitOnP isHtmlWhitespace).filter (· ≠ [])

/-- **C7, counterexample.** On the class attribute `"foo bar\tfoo"` the
code splits at the space character only, so the normalization pass leaves
the value (and a node carrying it) unchanged: the duplicate
whitespace-separated token `foo` survives, contradicting the claimed
deduplication of whitespace-separated tokens. -/
theorem c7_whitespace_counterexample :
    normalizeClass "foo bar\tfoo" = "foo bar\tfoo"
    ∧ normalizeClassAttrs [HNode.elem "p" [("class", "foo bar\tfoo")] []]
        = [HNode.elem "p" [("class", "foo bar\tfoo")] []]
    ∧ wsClassTokens (normalizeClass "foo bar\tfoo") ≠ uniq (wsClassTokens "foo bar\tfoo")
    ∧ ¬(wsClassTokens (normalizeClass "foo bar\tfoo")).Nodup := by
  refine ⟨by decide, ?_, by decide, by decide⟩
  show [HNode.elem "p" (setKey [("class", "foo bar\tfoo")] "class"
    (normalizeClass "foo bar\tfoo")) []] = _
  rw [show normalizeClass "foo bar\tfoo" = "foo bar\tfoo" by decide]
  rfl

/-- **C7 (amended).** Class-attribute normalization deduplicates the
single-space-separated class tokens of every node carrying a class
attribute (JS `split(' ')`: other whitespace characters are part of a
token), preserving first-occurrence order — `"foo bar foo baz"` becomes
`"foo bar baz"` — and is idempotent, both on one attribute value and on a
whole document. -/
theorem c7_class_normalization :
    (∀ s : String,
      (normalizeClass s).data.splitOn ' ' = uniq (s.data.splitOn ' ') ∧
        normalizeClass (normalizeClass s) = normalizeClass s)
    ∧ (∀ l : List (List Char), (uniq l).Nodup ∧ (uniq l).Sublist l
        ∧ ∀ x, x ∈ uniq l ↔ x ∈ l)
    ∧ (∀ (a : List Char) (t : List (List Char)),
        uniq (a :: t) = a :: uniq (t.filter (· ≠ a)))
    ∧ normalizeClass "foo bar foo baz" = "foo bar baz"
    ∧ (∀ d : Html, normalizeClassAttrs (normalizeClassAttrs d) = normalizeClassAttrs d) :=
  ⟨fun s => ⟨normalizeClass_tokens s, normalizeClass_idem s⟩,
   fun l => ⟨uniq_nodup l, uniq_sublist l, uniq_mem l⟩,
   fun a t => uniq_cons a t,
   by decide,
   fun d => normalizeClassL_idem d⟩

/-! ## C3: the blocking-to-non-blocking stylesheet conversion -/

theorem convertCSSL_append (l₁ l₂ : List HNode) :
    convertCSSL (l₁ ++ l₂) = convertCSSL l₁ ++ convertCSSL l₂ := by
  induction l₁ with
  | nil => rfl
  | cons n rest ih =>
    rw [List.cons_append, convertCSSL, convertCSSL, ih, List.append_assoc]

/-- **C3, counterexample.** A single stylesheet link is replaced by the
no-script-wrapped fallback *first* and the preload link *second*
(`DomUtils.append` inserts directly after the element, so the second
insertion lands between the element and the first), not in the claimed
preload-first order. -/
theorem c3_order_counterexample :
    convertCSSToNonBlocking
        [HNode.elem "link" [("rel", "stylesheet"), ("href", "s.css")] []]
      = [noscriptFallback "s.css", preloadLink "s.css"]
    ∧ convertCSSToNonBlocking
        [HNode.elem "link" [("rel", "stylesheet"), ("href", "s.css")] []]
      ≠ [preloadLink "s.css", noscriptFallback "s.css"] := by
  refine ⟨rfl, fun h => ?_⟩
  simp [convertCSSToNonBlocking, convertCSSL, convertCSSN, noscriptFallback,
    preloadLink, isStylesheetLink, getAttr] at h

/-- **C3 (amended).** Every stylesheet-link node is replaced by exactly two
nodes carrying its href — the no-script-wrapped fallback first, then the
preload link with the inline onload handler — with the original node
removed. -/
theorem c3_nonblocking_conversion : ∀ (pre post : List HNode) (nm : String)
    (a : List (String × String)) (c : List HNode) (href : String),
    isStylesheetLink nm a = true → getAttr a "href" = some href →
    convertCSSToNonBlocking (pre ++ HNode.elem nm a c :: post)
      = convertCSSToNonBlocking pre
        ++ ([noscriptFallback href, preloadLink href] ++ convertCSSToNonBlocking post) := by
  intro pre post nm a c href h1 h2
  show convertCSSL _ = convertCSSL pre ++ _
  rw [convertCSSL_append, convertCSSL, convertCSSN, if_pos h1, h2]
  rfl

/-- Witness for C3 (amended): one stylesheet link with href `s.css`. -/
theorem c3_nonblocking_conversion_witness :
    convertCSSToNonBlocking
        ([] ++ HNode.elem "link" [("rel", "stylesheet"), ("href", "s.css")] [] :: [])
      = convertCSSToNonBlocking []
        ++ ([noscriptFallback "s.css", preloadLink "s.css"]
            ++ convertCSSToNonBlocking []) :=
  c3_nonblocking_conversion [] [] "link" [("rel", "stylesheet"), ("href", "s.css")] []
    "s.css" (by decide) (by decide)

/-! ## C4: reference rewriting -/

theorem replaceCSSImportsL_append (o r : String) (l₁ l₂ : List HNode) :
    replaceCSSImportsL o r (l₁ ++ l₂)
      = replaceCSSImportsL o r l₁ ++ replaceCSSImportsL o r l₂ := by
  induction l₁ with
  | nil => rfl
  | cons n rest ih => rw [List.cons_append, replaceCSSImportsL, replaceCSSImportsL, ih]; rfl

theorem replaceJSImportsL_append (o r : String) (l₁ l₂ : List HNode) :
    replaceJSImportsL o r (l₁ ++ l₂)
      = replaceJSImportsL o r l₁ ++ replaceJSImportsL o r l₂ := by
  induction l₁ with
  | nil => rfl
  | cons n rest ih => rw [List.cons_append, replaceJSImportsL, replaceJSImportsL, ih]; rfl

mutual

theorem replaceCSSImportsN_noop : (o r : String) → (nd : HNode) →
    (∀ e ∈ findAllN isStylesheetLink nd, nodeAttr e "href" ≠ some o) →
    replaceCSSImportsN o r nd = nd
  | o, r, .elem n a c, h => by
    have hc : replaceCSSImportsL o r c = c := by
      apply replaceCSSImportsL_noop o r c
      intro e he
      apply h e
      rw [findAllN]
      exact List.mem_append_right _ he
    rw [replaceCSSImportsN, hc]
    by_cases hp : isStylesheetLink n a = true
    · have hself : HNode.elem n a c ∈ findAllN isStylesheetLink (.elem n a c) := by
        rw [findAllN, if_pos hp]
        exact List.mem_append_left _ (List.mem_singleton_self _)
      have hne : getAttr a "href" ≠ some o := h _ hself
      have hcond : (isStylesheetLink n a && (getAttr a "href" == some o)) = false := by
        have : (getAttr a "href" == some o) = false := beq_eq_false_iff_ne.mpr hne
        rw [this, Bool.and_false]
      rw [if_neg (by rw [hcond]; exact Bool.false_ne_true)]
    · have hcond : (isStylesheetLink n a && (getAttr a "href" == some o)) = false := by
        rw [Bool.eq_false_iff.mpr hp, Bool.false_and]
      rw [if_neg (by rw [hcond]; exact Bool.false_ne_true)]
  | _, _, .text s, _ => rfl

theorem replaceCSSImportsL_noop : (o r : String) → (l : List HNode) →
    (∀ e ∈ findAllL isStylesheetLink l, nodeAttr e "href" ≠ some o) →
    replaceCSSImportsL o r l = l
  | _, _, [], _ => rfl
  | o, r, n :: rest, h => by
    rw [replaceCSSImportsL,
      replaceCSSImportsN_noop o r n
        (fun e he => h e (by rw [findAllL]; exact List.mem_append_left _ he)),
      replaceCSSImportsL_noop o r rest
        (fun e he => h e (by rw [findAllL]; exact List.mem_append_right _ he))]

end

mutual

theorem replaceJSImportsN_noop : (o r : String) → (nd : HNode) →
    (∀ e ∈ findAllN isScriptWithSrc nd, nodeAttr e "src" ≠ some o) →
    replaceJSImportsN o r nd = nd
  | o, r, .elem n a c, h => by
    have hc : replaceJSImportsL o r c = c := by
      apply replaceJSImportsL_noop o r c
      intro e he
      apply h e
      rw [findAllN]
      exact List.mem_append_right _ he
    rw [replaceJSImportsN, hc]
    by_cases hp : isScriptWithSrc n a = true
    · have hself : HNode.elem n a c ∈ findAllN isScriptWithSrc (.elem n a c) := by
        rw [findAllN, if_pos hp]
        exact List.mem_append_left _ (List.mem_singleton_self _)
      have hne : getAttr a "src" ≠ some o := h _ hself
      have hcond : (isScriptWithSrc n a && (getAttr a "src" == some o)) = false := by
        have : (getAttr a "src" == some o) = false := beq_eq_false_iff_ne.mpr hne
        rw [this, Bool.and_false]
      rw [if_neg (by rw [hcond]; exact Bool.false_ne_true)]
    · have hcond : (isScriptWithSrc n a && (getAttr a "src" == some o)) = false := by
        rw [Bool.eq_false_iff.mpr hp, Bool.false_and]
      rw [if_neg (by rw [hcond]; exact Bool.false_ne_true)]
  | _, _, .text s, _ => rfl

theorem replaceJSImportsL_noop : (o r : String) → (l : List HNode) →
    (∀ e ∈ findAllL isScriptWithSrc l, nodeAttr e "src" ≠ some o) →
    replaceJSImportsL o r l = l
  | _, _, [], _ => rfl
  | o, r, n :: rest, h => by
    rw [replaceJSImportsL,
      replaceJSImportsN_noop o r n
        (fun e he => h e (by rw [findAllL]; exact List.mem_append_left _ he)),
      replaceJSImportsL_noop o r rest
        (fun e he => h e (by rw [findAllL]; exact List.mem_append_right _ he))]

end

/-- **C4, counterexample.** A stylesheet link whose stored href is
`./a.css` is *not* rewritten when the caller asks to replace `a.css`,
although the two are equal after `path.normalize` (and the extractor
itself reports the normalized form `a.css`): the comparison in
`replaceCSSImports` is raw string equality with no normalization. -/
theorem c4_normalization_counterexample :
    replaceCSSImports
        [HNode.elem "link" [("rel", "stylesheet"), ("href", "./a.css")] []]
        "a.css" "b.css"
      = [HNode.elem "link" [("rel", "stylesheet"), ("href", "./a.css")] []]
    ∧ pathNormalize "./a.css" = pathNormalize "a.css"
    ∧ getCSSImports [HNode.elem "link" [("rel", "stylesheet"), ("href", "./a.css")] []]
        = ["a.css"] :=
  ⟨rfl, by decide, by decide⟩

/-- **C4 (amended).** Reference rewriting replaces the path attribute of
every node of the given kind whose stored reference is exactly (raw
string comparison, no normalization at comparison time) the original
relative path, and is a silent no-op — not an error — when no node
matches. -/
theorem c4_reference_rewrite :
    (∀ (pre post : List HNode) (nm : String) (a : List (String × String))
        (c : List HNode) (o r : String),
      isStylesheetLink nm a = true → getAttr a "href" = some o →
      replaceCSSImports (pre ++ HNode.elem nm a c :: post) o r
        = replaceCSSImportsL o r pre
          ++ HNode.elem nm (setKey a "href" r) (replaceCSSImportsL o r c)
            :: replaceCSSImportsL o r post)
    ∧ (∀ (d : Html) (o r : String),
      (∀ e ∈ getCSSElements d, nodeAttr e "href" ≠ some o) →
      replaceCSSImports d o r = d)
    ∧ (∀ (pre post : List HNode) (nm : String) (a : List (String × String))
        (c : List HNode) (o r : String),
      isScriptWithSrc nm a = true → getAttr a "src" = some o →
      replaceJSImports (pre ++ HNode.elem nm a c :: post) o r
        = replaceJSImportsL o r pre
          ++ HNode.elem nm (setKey a "src" r) (replaceJSImportsL o r c)
            :: replaceJSImportsL o r post)
    ∧ (∀ (d : Html) (o r : String),
      (∀ e ∈ getJSElements d, nodeAttr e "src" ≠ some o) →
      replaceJSImports d o r = d) := by
  refine ⟨?_, ?_, ?_, ?_⟩
  · intro pre post nm a c o r h1 h2
    show replaceCSSImportsL o r _ = _
    rw [replaceCSSImportsL_append, replaceCSSImportsL, replaceCSSImportsN]
    have hcond : (isStylesheetLink nm a && (getAttr a "href" == some o)) = true := by
      rw [h1, h2, Bool.true_and, beq_self_eq_true]
    rw [if_pos hcond]
  · exact fun d o r h => replaceCSSImportsL_noop o r d h
  · intro pre post nm a c o r h1 h2
    show replaceJSImportsL o r _ = _
    rw [replaceJSImportsL_append, replaceJSImportsL, replaceJSImportsN]
    have hcond : (isScriptWithSrc nm a && (getAttr a "src" == some o)) = true := by
      rw [h1, h2, Bool.true_and, beq_self_eq_true]
    rw [if_pos hcond]
  · exact fun d o r h => replaceJSImportsL_noop o r d h

/-- Witness for C4 (amended): a matching stylesheet link is rewritten, and
a document with no matching node is returned unchanged. -/
theorem c4_reference_rewrite_witness :
    replaceCSSImports
        ([] ++ HNode.elem "link" [("rel", "stylesheet"), ("href", "x.css")] [] :: [])
        "x.css" "y.css"
      = replaceCSSImportsL "x.css" "y.css" []
        ++ HNode.elem "link"
            (setKey [("rel", "stylesheet"), ("href", "x.css")] "href" "y.css")
            (replaceCSSImportsL "x.css" "y.css" [])
          :: replaceCSSImportsL "x.css" "y.css" []
    ∧ replaceCSSImports [HNode.text "hi"] "x.css" "y.css" = [HNode.text "hi"] :=
  ⟨c4_reference_rewrite.1 [] [] "link" [("rel", "stylesheet"), ("href", "x.css")] []
      "x.css" "y.css" (by decide) (by decide),
   c4_reference_rewrite.2.1 [HNode.text "hi"] "x.css" "y.css"
      (fun e he => absurd he (by intro hc; simp [getCSSElements, findAllL, findAllN] at hc))⟩

/-! ## C5: the sass importer of `transpileCSS` (`src/src/index.ts`) -/

/-- The filesystem seen by the importer: which paths exist as files, and
which are directories (`isDir`). -/
structure SassFS where
  ex : String → Bool
  isDir : String → Bool

/-- `pickFirstExisting`: the first candidate that exists, `null` (`none`)
otherwise. -/
def pickFirstExisting (fs : SassFS) (files : List String) : Option String :=
  files.find? fs.ex

/-- The candidate list built by `importer.load`: the canonical path
verbatim, then — only when the canonical path is a directory —
`_index.scss` inside it, otherwise the underscore-prefixed sibling. -/
def loadCandidates (fs : SassFS) (canonPath : String) : List String :=
  [canonPath,
    if fs.isDir canonPath then pathJoin canonPath "_index.scss"
    else pathJoin (pathDirname canonPath) ("_" ++ pathBasename canonPath)]

/-- `importer.load`: the file chosen for a canonical path, `none` when no
candidate exists (the JS throws `«canonPath» not found`). -/
def importerLoad (fs : SassFS) (canonPath : String) : Option String :=
  pickFirstExisting fs (loadCandidates fs canonPath)

/-- JS `url.includes('/~/')`. -/
def hasTildeSeg : List Char → Bool
  | '/' :: '~' :: '/' :: _ => true
  | _ :: rest => hasTildeSeg rest
  | [] => false

/-- JS `url.slice(url.indexOf('/~/') + 1)`: everything from the first
`/~/`, starting at the `~`. -/
def sliceFromTilde : List Char → List Char
  | '/' :: '~' :: '/' :: rest => '~' :: '/' :: rest
  | _ :: rest => sliceFromTilde rest
  | [] => []

/-- The pathname of `new URL(rel, base)` where the base is a `file:` URL
with pathname `baseAbs` (leading `/`): an absolute-path `rel` replaces
the pathname, otherwise `rel` replaces the base's last segment; dot
segments are removed per WHATWG URL path normalization. -/
def urlPathname (baseAbs : String) (rel : String) : String :=
  if startsWithSlash rel then
    ⟨'/' :: List.intercalate ['/'] (normAcc true [] (segsOf rel))⟩
  else
    ⟨'/' :: List.intercalate ['/'] (normAcc true [] ((segsOf baseAbs).dropLast ++ segsOf rel))⟩

/-- `canonicalize` of `transpileCSS` composed with `load`'s
`canonicalUrl.pathname.slice(1)`: the project-relative canonical path of
the import string `url` occurring in the file with canonical path
`containing` (`none` for the top-level request, resolved against the
entry `pathname` on `file:///`).  No extension is ever appended. -/
def canonPathOf (entryPath : String) (containing : Option String) (url : String) : String :=
  let u : String := if hasTildeSeg url.data then ⟨sliceFromTilde url.data⟩ else url
  let pn : String :=
    match u.data with
    | '~' :: '/' :: rest => urlPathname "/node_modules/" ⟨rest⟩
    | _ =>
      match containing with
      | some c => urlPathname ("/" ++ c) u
      | none => urlPathname ("/" ++ entryPath) u
  ⟨pn.data.drop 1⟩

/-- One style import resolution: canonicalize, then pick the loaded file. -/
def resolveImport (fs : SassFS) (entryPath : String) (containing : Option String)
    (url : String) : Option String :=
  importerLoad fs (canonPathOf entryPath containing url)

/-- A directory `d` holding exactly `d/x.scss` and `d/_x.scss` (plus the
importing file `d/main.scss`); nothing is a directory except `d`. -/
def exampleSassFS : SassFS where
  ex := fun p => p == "d/x.scss" || p == "d/_x.scss" || p == "d/main.scss"
  isDir := fun p => p == "d"

/-- **C5, counterexample.** With `d/x.scss` and `d/_x.scss` both present,
the bare import `x` (written in `d/main.scss`) resolves to the canonical
path `d/x` and *fails*: the resolver appends no extension, so neither the
verbatim candidate `d/x` nor the partial candidate `d/_x` exists, and the
claimed resolution to `x.scss` does not happen. -/
theorem c5_bare_import_counterexample :
    exampleSassFS.ex "d/x.scss" = true ∧ exampleSassFS.ex "d/_x.scss" = true
    ∧ canonPathOf "d/main.scss" (some "d/main.scss") "x" = "d/x"
    ∧ resolveImport exampleSassFS "d/main.scss" (some "d/main.scss") "x" = none
    ∧ resolveImport exampleSassFS "d/main.scss" (some "d/main.scss") "x"
        ≠ some "d/x.scss" := by
  refine ⟨by decide, by decide, by decide, by decide, by decide⟩

/-- **C5 (amended).** Style import resolution tries candidates in a fixed
precedence — the resolved path verbatim first; only if the resolved path
is a directory, an `_index.scss` file inside it; otherwise the
underscore-prefixed sibling — and never appends a style extension, so
when a directory contains both `x.scss` and `_x.scss`, importing
`x.scss` resolves to `x.scss`, never the partial. -/
theorem c5_import_resolution :
    (∀ (fs : SassFS) (p : String),
      (fs.ex p = true → importerLoad fs p = some p)
      ∧ (fs.ex p = false → fs.isDir p = true →
          importerLoad fs p =
            if fs.ex (pathJoin p "_index.scss") then some (pathJoin p "_index.scss")
            else none)
      ∧ (fs.ex p = false → fs.isDir p = false →
          importerLoad fs p =
            if fs.ex (pathJoin (pathDirname p) ("_" ++ pathBasename p)) then
              some (pathJoin (pathDirname p) ("_" ++ pathBasename p))
            else none))
    ∧ resolveImport exampleSassFS "d/main.scss" (some "d/main.scss") "x.scss"
        = some "d/x.scss" := by
  refine ⟨fun fs p => ⟨?_, ?_, ?_⟩, by decide⟩
  · intro h
    simp [importerLoad, pickFirstExisting, loadCandidates, List.find?, h]
  · intro h hd
    simp only [importerLoad, pickFirstExisting, loadCandidates, if_pos hd, List.find?, h]
    by_cases hi : fs.ex (pathJoin p "_index.scss") = true
    · simp [hi]
    · simp [Bool.eq_false_iff.mp (Bool.not_eq_true _ ▸ hi)]
  · intro h hd
    simp only [importerLoad, pickFirstExisting, loadCandidates,
      Bool.false_eq_true, if_neg (hd ▸ Bool.false_ne_true), List.find?, h]
    by_cases hi : fs.ex (pathJoin (pathDirname p) ("_" ++ pathBasename p)) = true
    · simp [hi]
    · simp [Bool.eq_false_iff.mp (Bool.not_eq_true _ ▸ hi)]

/-- Witness for C5 (amended): `d/x.scss` exists, so the verbatim
candidate wins even though the partial `d/_x.scss` exists too. -/
theorem c5_import_resolution_witness :
    importerLoad exampleSassFS "d/x.scss" = some "d/x.scss" :=
  (c5_import_resolution.1 exampleSassFS "d/x.scss").1 (by decide)

/-! ## C8: the output checks of `transpileJS` (`src/src/index.ts`) -/

/-- One artifact of `Bun.build`'s result. -/
structure BunArtifact where
  kind : String
  text : String

/-- The result object of `Bun.build`. -/
structure BunOutput where
  success : Bool
  outputs : List BunArtifact

/-- The external collaborators consumed by `transpileJS`: the filesystem
check, the Bun bundler, the TypeScript export-stripping transform
(`removeExportsFromJS`, whose `minify` flag drives the printer options)
and the `uglify-js` minifier. -/
structure JSEnv where
  fileExists : String → Bool
  bunBuild : String → String → Bool → BunOutput
  removeExportsFromJS : String → Bool → String
  minifyJS : String → String

/-- `transpileJS` from `src/src/index.ts`.  The singleton match plays the
role of the two JS checks `output.outputs.length !== 1` (length error)
and `output.outputs[0].kind !== 'entry-point'` (kind error). -/
def transpileJS (env : JSEnv) (pathname root : String) (minify : Bool) :
    Except String String :=
  if env.fileExists pathname = false then .error (pathname ++ " not found")
  else
    let output := env.bunBuild pathname root minify
    if output.success = false then .error ("Failed to transpile: " ++ pathname)
    else
      match output.outputs with
      | [a] =>
        if a.kind ≠ "entry-point" then
          .error ("Expected output to be an entry-point, got " ++ a.kind)
        else
          let transformed := env.removeExportsFromJS a.text minify
          .ok (if minify then env.minifyJS transformed else transformed)
      | os =>
        .error ("Expected one output while transpiling, got " ++ toString os.length)

/-- **C8.** `transpileJS` fails with an error whenever bundling produces
other than exactly one output artifact, or the single output is not of
entry-point kind; only when exactly one entry-point artifact is produced
does it return its (export-stripped, optionally minified) text. -/
theorem c8_output_checks :
    ∀ (env : JSEnv) (p root : String) (m : Bool),
      ((env.bunBuild p root m).outputs.length ≠ 1 →
        ∃ e, transpileJS env p root m = .error e)
      ∧ (∀ a, (env.bunBuild p root m).outputs = [a] → a.kind ≠ "entry-point" →
          ∃ e, transpileJS env p root m = .error e)
      ∧ (∀ t, transpileJS env p root m = .ok t →
          ∃ a, (env.bunBuild p root m).outputs = [a] ∧ a.kind = "entry-point"
            ∧ t = (if m then env.minifyJS (env.removeExportsFromJS a.text m)
                   else env.removeExportsFromJS a.text m)) := by
  intro env p root m
  refine ⟨?_, ?_, ?_⟩
  · intro hlen
    unfold transpileJS
    by_cases hf : env.fileExists p = false
    · exact ⟨_, by rw [if_pos hf]⟩
    · rw [if_neg hf]
      by_cases hs : (env.bunBuild p root m).success = false
      · exact ⟨_, by rw [if_pos hs]⟩
      · rw [if_neg hs]
        rcases houts : (env.bunBuild p root m).outputs with _ | ⟨a, _ | ⟨b, t⟩⟩
        · exact ⟨_, rfl⟩
        · exact absurd (by rw [houts]; rfl) hlen
        · exact ⟨_, rfl⟩
  · intro a houts hkind
    unfold transpileJS
    by_cases hf : env.fileExists p = false
    · exact ⟨_, by rw [if_pos hf]⟩
    · rw [if_neg hf]
      by_cases hs : (env.bunBuild p root m).success = false
      · exact ⟨_, by rw [if_pos hs]⟩
      · rw [if_neg hs, houts]
        exact ⟨_, if_pos hkind⟩
  · intro t hok
    unfold transpileJS at hok
    by_cases hf : env.fileExists p = false
    · rw [if_pos hf] at hok; exact absurd hok (by simp)
    · rw [if_neg hf] at hok
      by_cases hs : (env.bunBuild p root m).success = false
      · rw [if_pos hs] at hok; exact absurd hok (by simp)
      · rw [if_neg hs] at hok
        rcases houts : (env.bunBuild p root m).outputs with _ | ⟨a, _ | ⟨b, tl⟩⟩
        · rw [houts] at hok; exact absurd hok (by simp)
        · rw [houts] at hok
          have hok' : (if a.kind ≠ "entry-point" then
                (Except.error ("Expected output to be an entry-point, got " ++ a.kind)
                  : Except String String)
              else Except.ok (if m then env.minifyJS (env.removeExportsFromJS a.text m)
                   else env.removeExportsFromJS a.text m)) = Except.ok t := hok
          by_cases hkind : a.kind ≠ "entry-point"
          · rw [if_pos hkind] at hok'; exact absurd hok' (by simp)
          · rw [if_neg hkind] at hok'
            exact ⟨a, rfl, not_not.mp hkind, (Except.ok.inj hok').symm⟩
        · rw [houts] at hok; exact absurd hok (by simp)

/-- A bundler environment producing two artifacts. -/
def jsEnvTwoExample : JSEnv :=
  ⟨fun _ => true, fun _ _ _ => ⟨true, [⟨"entry-point", "x"⟩, ⟨"chunk", "y"⟩]⟩,
    fun s _ => s, fun s => s⟩

/-- A bundler environment producing one entry-point artifact. -/
def jsEnvOkExample : JSEnv :=
  ⟨fun _ => true, fun _ _ _ => ⟨true, [⟨"entry-point", "code"⟩]⟩,
    fun s _ => s, fun s => s⟩

/-- Witness for C8: a two-artifact bundle errors; a single entry-point
bundle returns the processed text. -/
theorem c8_output_checks_witness :
    (∃ e, transpileJS jsEnvTwoExample "a.ts" "." false = .error e)
    ∧ ∃ a, (jsEnvOkExample.bunBuild "a.ts" "." false).outputs = [a]
        ∧ a.kind = "entry-point"
        ∧ "code" = (if false then jsEnvOkExample.minifyJS
              (jsEnvOkExample.removeExportsFromJS a.text false)
            else jsEnvOkExample.removeExportsFromJS a.text false) :=
  ⟨(c8_output_checks jsEnvTwoExample "a.ts" "." false).1 (by decide),
   (c8_output_checks jsEnvOkExample "a.ts" "." false).2.2 "code" rfl⟩

/-! ## The build orchestrator of `src/build.ts`

The per-document loop, the `builtFiles` record, the abort-on-error
behaviour (`errorHandler` calls `process.exit(1)`, so a failure stops the
program before the output-writing phase), the output write loop and the
final pass-through copy loop.  External effects (reading and parsing an
HTML file, the two transforms, serialization, HTML minification, raw file
contents for copying) are oracle fields of `BuildEnv`; the `clean` phase
only deletes stale destination files and is not modelled. -/

structure CssConfig where
  minify : Bool

structure HtmlConfig where
  minify : Bool
  minifyClasses : Bool
  reduceBlocking : Bool

structure JsConfig where
  minify : Bool

/-- `BSTConfig` from `src/src/index.ts`. -/
structure BSTConfig where
  source : String
  destination : String
  clean : Bool
  css : CssConfig
  html : HtmlConfig
  js : JsConfig

/-- External collaborators of the build loop.  `getDoc` is the file read
plus parse inside `getHTML` (`none` when the file is missing), *before*
the class-normalization pass, which is repository code. -/
structure BuildEnv where
  getDoc : String → Option Html
  transpileCSS : String → Bool → Except String String
  transpileJS : String → String → Bool → Except String String
  serializeHTML : Html → String
  minifyHTML : String → String
  fileContent : String → String

/-- `getHTML` from `src/src/index.ts`: read, parse, then normalize the
class attributes. -/
def getHTML (env : BuildEnv) (p : String) : Option Html :=
  (env.getDoc p).map normalizeClassAttrs

/-- A record of one transform invocation made by the build loop. -/
inductive TransformCall where
  | css (outPath srcPath : String) (minify : Bool)
  | js (outPath srcPath root : String) (minify : Bool)

/-- The computed output path of an invocation. -/
def TransformCall.outPath : TransformCall → String
  | .css o _ _ => o
  | .js o _ _ _ => o

/-- Orchestrator state: the `builtFiles` record (insertion-ordered, as a
JS object) and the log of transform invocations made so far. -/
structure BState where
  builtFiles : List (String × String)
  calls : List TransformCall

def initState : BState := ⟨[], []⟩

/-- One iteration of the CSS import loop of `src/build.ts`: compute the
built path, compile through `transpileCSS` only when the built path is
not yet a key of `builtFiles`, then rewrite the document reference.  An
error aborts the build (`errorHandler` exits the process), carrying the
state at failure time. -/
def cssStep (env : BuildEnv) (cfg : BSTConfig) (basePath : String)
    (st : BState) (html : Html) (cssPath : String) : Except BState (BState × Html) :=
  let builtPath := builtCssPath cssPath
  if (st.builtFiles.lookup builtPath).isSome then
    .ok (st, replaceCSSImports html (importDemapper basePath cssPath)
      (importDemapper basePath builtPath))
  else
    let st' : BState := { st with calls := st.calls ++ [.css builtPath cssPath cfg.css.minify] }
    match env.transpileCSS cssPath cfg.css.minify with
    | .error _ => .error st'
    | .ok content =>
      .ok ({ st' with builtFiles := setKey st'.builtFiles builtPath content },
        replaceCSSImports html (importDemapper basePath cssPath)
          (importDemapper basePath builtPath))

def cssLoop (env : BuildEnv) (cfg : BSTConfig) (basePath : String) :
    List String → BState → Html → Except BState (BState × Html)
  | [], st, html => .ok (st, html)
  | p :: rest, st, html =>
    match cssStep env cfg basePath st html p with
    | .error st' => .error st'
    | .ok (st', html') => cssLoop env cfg basePath rest st' html'

/-- One iteration of the JS import loop.  The source passes
`config.css.minify` — not `config.js.minify` — as the minify option of
`transpileJS` (src/build.ts line 59). -/
def jsStep (env : BuildEnv) (cfg : BSTConfig) (basePath : String)
    (st : BState) (html : Html) (jsPath : String) : Except BState (BState × Html) :=
  let builtPath := builtJsPath jsPath
  if (st.builtFiles.lookup builtPath).isSome then
    .ok (st, replaceJSImports html (importDemapper basePath jsPath)
      (importDemapper basePath builtPath))
  else
    let st' : BState :=
      { st with calls := st.calls ++ [.js builtPath jsPath cfg.source cfg.css.minify] }
    match env.transpileJS jsPath cfg.source cfg.css.minify with
    | .error _ => .error st'
    | .ok content =>
      .ok ({ st' with builtFiles := setKey st'.builtFiles builtPath content },
        replaceJSImports html (importDemapper basePath jsPath)
          (importDemapper basePath builtPath))

def jsLoop (env : BuildEnv) (cfg : BSTConfig) (basePath : String) :
    List String → BState → Html → Except BState (BState × Html)
  | [], st, html => .ok (st, html)
  | p :: rest, st, html =>
    match jsStep env cfg basePath st html p with
    | .error st' => .error st'
    | .ok (st', html') => jsLoop env cfg basePath rest st' html'

/-- Processing of one HTML document by the loop body of `src/build.ts`:
load and normalize, extract and map both import lists, run the CSS then
the JS loop, optionally convert to non-blocking, serialize into
`builtFiles[htmlPath]`, optionally minify that entry in place. -/
def processDoc (env : BuildEnv) (cfg : BSTConfig) (st : BState) (htmlPath : String) :
    Except BState BState :=
  let basePath := pathDirname htmlPath
  match getHTML env htmlPath with
  | none => .error st
  | some html =>
    let cssImports := (getCSSImports html).map (importMapper basePath)
    let jsImports := (getJSImports html).map (importMapper basePath)
    match cssLoop env cfg basePath cssImports st html with
    | .error st' => .error st'
    | .ok (st₁, html₁) =>
      match jsLoop env cfg basePath jsImports st₁ html₁ with
      | .error st' => .error st'
      | .ok (st₂, html₂) =>
        let html₃ := if cfg.html.reduceBlocking
          then convertJSToNonBlocking (convertCSSToNonBlocking html₂) else html₂
        let st₃ : BState :=
          { st₂ with builtFiles := setKey st₂.builtFiles htmlPath (env.serializeHTML html₃) }
        .ok (if cfg.html.minify then
            { st₃ with builtFiles := (setKey st₃.builtFiles htmlPath
                (env.minifyHTML ((st₃.builtFiles.lookup htmlPath).getD ""))) }
          else st₃)

/-- The whole per-document loop, aborting the build on the first error. -/
def buildLoop (env : BuildEnv) (cfg : BSTConfig) :
    List String → BState → Except BState BState
  | [], st => .ok st
  | p :: rest, st =>
    match processDoc env cfg st p with
    | .error st' => .error st'
    | .ok st' => buildLoop env cfg rest st'

/-- The state reached by the loop, whether it completed or aborted. -/
def stateOf : Except BState BState → BState
  | .ok st => st
  | .error st => st

/-- `path.join(config.destination, path.relative(config.source, p))`. -/
def destPath (cfg : BSTConfig) (p : String) : String :=
  pathJoin cfg.destination (pathRelative cfg.source p)

/-- The pass-through filter of the final copy loop:
`!path.extname(file).match(/\.(html|s[ac]ss|tsx?)$/)`. -/
def copyFilter (p : String) : Bool :=
  !(sfx (extname p) ".html" || sfx (extname p) ".sass" || sfx (extname p) ".scss"
    || sfx (extname p) ".ts" || sfx (extname p) ".tsx")

/-- The two write loops at the end of `src/build.ts`, in program order:
every `builtFiles` entry is written to its destination path, then every
source file passing `copyFilter` is copied verbatim over it. -/
def writePhase (env : BuildEnv) (cfg : BSTConfig) (st : BState)
    (allFiles : List String) : List (String × String) :=
  st.builtFiles.map (fun kv => (destPath cfg kv.1, kv.2))
    ++ (allFiles.filter copyFilter).map (fun f => (destPath cfg f, env.fileContent f))

/-- The content a destination path holds after a write sequence: the last
write wins. -/
def lastWrite (writes : List (String × String)) (p : String) : Option String :=
  writes.foldl (fun acc w => if w.1 == p then some w.2 else acc) none

/-- The full build: the document loop, then — only when no document
aborted (`process.exit(1)` fires before any write otherwise) — the write
phase.  `none` means nothing was written. -/
def runBuild (env : BuildEnv) (cfg : BSTConfig) (docs allFiles : List String) :
    Option (List (String × String)) :=
  match buildLoop env cfg docs initState with
  | .error _ => none
  | .ok st => some (writePhase env cfg st allFiles)

/-! ### Monotonicity of the `builtFiles` record -/

theorem lookup_map_replaceKey {α β : Type} [BEq α] [LawfulBEq α] (k : α) (v : β)
    (k' : α) (h : (k' == k) = false) : ∀ m : List (α × β),
    (m.map (fun p => if p.1 == k then (k, v) else p)).lookup k' = m.lookup k'
  | [] => rfl
  | (k₁, v₁) :: t => by
    rw [List.map_cons]
    by_cases hk1 : (k₁ == k) = true
    · rw [if_pos hk1]
      have hkk : k₁ = k := eq_of_beq hk1
      rw [hkk]
      simp only [List.lookup, h]
      exact lookup_map_replaceKey k v k' h t
    · rw [if_neg hk1]
      by_cases hk' : (k' == k₁) = true
      · simp only [List.lookup, hk']
      · simp only [Bool.not_eq_true] at hk'
        simp only [List.lookup, hk']
        exact lookup_map_replaceKey k v k' h t

theorem lookup_append_sing {α β : Type} [BEq α] [LawfulBEq α] (k : α) (v : β)
    (k' : α) (h : (k' == k) = false) : ∀ m : List (α × β),
    (m ++ [(k, v)]).lookup k' = m.lookup k'
  | [] => by simp [List.lookup, h]
  | (k₁, v₁) :: t => by
    rw [List.cons_append]
    by_cases hk' : (k' == k₁) = true
    · simp only [List.lookup, hk']
    · simp only [Bool.not_eq_true] at hk'
      simp only [List.lookup, hk']
      exact lookup_append_sing k v k' h t

/-- `setKey` at key `k` leaves every other key's binding untouched. -/
theorem lookup_setKey_ne {α β : Type} [BEq α] [LawfulBEq α] (m : List (α × β))
    (k : α) (v : β) (k' : α) (h : k' ≠ k) :
    (setKey m k v).lookup k' = m.lookup k' := by
  have hb : (k' == k) = false := beq_eq_false_iff_ne.mpr h
  by_cases hp : (m.lookup k).isSome
  · rw [setKey_present m k v hp]
    exact lookup_map_replaceKey k v k' hb m
  · rw [setKey_absent m k v hp]
    exact lookup_append_sing k v k' hb m

/-- `setKey` preserves the presence of every key. -/
theorem lookup_setKey_isSome {α β : Type} [BEq α] [LawfulBEq α] (m : List (α × β))
    (k : α) (v : β) (k' : α) (h : (m.lookup k').isSome) :
    ((setKey m k v).lookup k').isSome := by
  by_cases he : k' = k
  · subst he
    rw [lookup_setKey]
    rfl
  · rw [lookup_setKey_ne m k v k' he]
    exact h

theorem cssStep_ok_pres {env : BuildEnv} {cfg : BSTConfig} {base : String}
    {st : BState} {html : Html} {p : String} {st' : BState} {html' : Html}
    (h : cssStep env cfg base st html p = .ok (st', html')) :
    ∀ k v, st.builtFiles.lookup k = some v → st'.builtFiles.lookup k = some v := by
  unfold cssStep at h
  by_cases hc : (st.builtFiles.lookup (builtCssPath p)).isSome
  · rw [if_pos hc] at h
    simp only [Except.ok.injEq, Prod.mk.injEq] at h
    obtain ⟨rfl, -⟩ := h
    exact fun k v hk => hk
  · rw [if_neg hc] at h
    rcases ht : env.transpileCSS p cfg.css.minify with e | content
    · rw [ht] at h
      exact absurd h (by simp)
    · rw [ht] at h
      simp only [Except.ok.injEq, Prod.mk.injEq] at h
      obtain ⟨rfl, -⟩ := h
      intro k v hk
      have hne : k ≠ builtCssPath p := by
        intro he
        rw [he, Option.not_isSome_iff_eq_none.mp hc] at hk
        exact Option.noConfusion hk
      show (setKey st.builtFiles (builtCssPath p) content).lookup k = some v
      rw [lookup_setKey_ne _ _ _ _ hne]
      exact hk

theorem cssStep_error_builtFiles {env : BuildEnv} {cfg : BSTConfig} {base : String}
    {st : BState} {html : Html} {p : String} {st' : BState}
    (h : cssStep env cfg base st html p = .error st') :
    st'.builtFiles = st.builtFiles := by
  unfold cssStep at h
  by_cases hc : (st.builtFiles.lookup (builtCssPath p)).isSome
  · rw [if_pos hc] at h
    exact absurd h (by simp)
  · rw [if_neg hc] at h
    rcases ht : env.transpileCSS p cfg.css.minify with e | content
    · rw [ht] at h
      simp only [Except.error.injEq] at h
      rw [← h]
    · rw [ht] at h
      exact absurd h (by simp)

theorem jsStep_ok_pres {env : BuildEnv} {cfg : BSTConfig} {base : String}
    {st : BState} {html : Html} {p : String} {st' : BState} {html' : Html}
    (h : jsStep env cfg base st html p = .ok (st', html')) :
    ∀ k v, st.builtFiles.lookup k = some v → st'.builtFiles.lookup k = some v := by
  unfold jsStep at h
  by_cases hc : (st.builtFiles.lookup (builtJsPath p)).isSome
  · rw [if_pos hc] at h
    simp only [Except.ok.injEq, Prod.mk.injEq] at h
    obtain ⟨rfl, -⟩ := h
    exact fun k v hk => hk
  · rw [if_neg hc] at h
    rcases ht : env.transpileJS p cfg.source cfg.css.minify with e | content
    · rw [ht] at h
      exact absurd h (by simp)
    · rw [ht] at h
      simp only [Except.ok.injEq, Prod.mk.injEq] at h
      obtain ⟨rfl, -⟩ := h
      intro k v hk
      have hne : k ≠ builtJsPath p := by
        intro he
        rw [he, Option.not_isSome_iff_eq_none.mp hc] at hk
        exact Option.noConfusion hk
      show (setKey st.builtFiles (builtJsPath p) content).lookup k = some v
      rw [lookup_setKey_ne _ _ _ _ hne]
      exact hk

theorem jsStep_error_builtFiles {env : BuildEnv} {cfg : BSTConfig} {base : String}
    {st : BState} {html : Html} {p : String} {st' : BState}
    (h : jsStep env cfg base st html p = .error st') :
    st'.builtFiles = st.builtFiles := by
  unfold jsStep at h
  by_cases hc : (st.builtFiles.lookup (builtJsPath p)).isSome
  · rw [if_pos hc] at h
    exact absurd h (by simp)
  · rw [if_neg hc] at h
    rcases ht : env.transpileJS p cfg.source cfg.css.minify with e | content
    · rw [ht] at h
      simp only [Except.error.injEq] at h
      rw [← h]
    · rw [ht] at h
      exact absurd h (by simp)

theorem cssLoop_pres {env : BuildEnv} {cfg : BSTConfig} {base : String} :
    ∀ (ps : List String) (st : BState) (html : Html),
      (∀ st' html', cssLoop env cfg base ps st html = .ok (st', html') →
        ∀ k v, st.builtFiles.lookup k = some v → st'.builtFiles.lookup k = some v)
      ∧ (∀ st', cssLoop env cfg base ps st html = .error st' →
        ∀ k v, st.builtFiles.lookup k = some v → st'.builtFiles.lookup k = some v)
  | [], st, html => by
    constructor
    · intro st' html' h
      simp only [cssLoop, Except.ok.injEq, Prod.mk.injEq] at h
      obtain ⟨rfl, -⟩ := h
      exact fun k v hk => hk
    · intro st' h
      exact absurd h (by simp [cssLoop])
  | p :: rest, st, html => by
    constructor
    · intro st' html' h
      rw [cssLoop] at h
      rcases hs : cssStep env cfg base st html p with s₁ | ⟨s₁, h₁⟩
      · rw [hs] at h
        exact absurd h (by simp)
      · rw [hs] at h
        intro k v hk
        exact (cssLoop_pres rest s₁ h₁).1 st' html' h k v (cssStep_ok_pres hs k v hk)
    · intro st' h
      rw [cssLoop] at h
      rcases hs : cssStep env cfg base st html p with s₁ | ⟨s₁, h₁⟩
      · rw [hs] at h
        simp only [Except.error.injEq] at h
        subst h
        intro k v hk
        rw [cssStep_error_builtFiles hs]
        exact hk
      · rw [hs] at h
        intro k v hk
        exact (cssLoop_pres rest s₁ h₁).2 st' h k v (cssStep_ok_pres hs k v hk)

theorem jsLoop_pres {env : BuildEnv} {cfg : BSTConfig} {base : String} :
    ∀ (ps : List String) (st : BState) (html : Html),
      (∀ st' html', jsLoop env cfg base ps st html = .ok (st', html') →
        ∀ k v, st.builtFiles.lookup k = some v → st'.builtFiles.lookup k = some v)
      ∧ (∀ st', jsLoop env cfg base ps st html = .error st' →
        ∀ k v, st.builtFiles.lookup k = some v → st'.builtFiles.lookup k = some v)
  | [], st, html => by
    constructor
    · intro st' html' h
      simp only [jsLoop, Except.ok.injEq, Prod.mk.injEq] at h
      obtain ⟨rfl, -⟩ := h
      exact fun k v hk => hk
    · intro st' h
      exact absurd h (by simp [jsLoop])
  | p :: rest, st, html => by
    constructor
    · intro st' html' h
      rw [jsLoop] at h
      rcases hs : jsStep env cfg base st html p with s₁ | ⟨s₁, h₁⟩
      · rw [hs] at h
        exact absurd h (by simp)
      · rw [hs] at h
        intro k v hk
        exact (jsLoop_pres rest s₁ h₁).1 st' html' h k v (jsStep_ok_pres hs k v hk)
    · intro st' h
      rw [jsLoop] at h
      rcases hs : jsStep env cfg base st html p with s₁ | ⟨s₁, h₁⟩
      · rw [hs] at h
        simp only [Except.error.injEq] at h
        subst h
        intro k v hk
        rw [jsStep_error_builtFiles hs]
        exact hk
      · rw [hs] at h
        intro k v hk
        exact (jsLoop_pres rest s₁ h₁).2 st' h k v (jsStep_ok_pres hs k v hk)

theorem processDoc_ok_pres {env : BuildEnv} {cfg : BSTConfig} {st : BState}
    {d : String} {st' : BState} (h : processDoc env cfg st d = .ok st') :
    (∀ k v, k ≠ d → st.builtFiles.lookup k = some v → st'.builtFiles.lookup k = some v)
    ∧ (∀ k, (st.builtFiles.lookup k).isSome → (st'.builtFiles.lookup k).isSome)
    ∧ (st'.builtFiles.lookup d).isSome := by
  unfold processDoc at h
  rcases hg : getHTML env d with _ | html
  · rw [hg] at h
    exact absurd h (by simp)
  · rw [hg] at h
    dsimp only at h
    rcases hcs : cssLoop env cfg (pathDirname d)
        ((getCSSImports html).map (importMapper (pathDirname d))) st html with s | ⟨st₁, h₁⟩
    · rw [hcs] at h
      exact absurd h (by simp)
    · rw [hcs] at h
      dsimp only at h
      rcases hjs : jsLoop env cfg (pathDirname d)
          ((getJSImports html).map (importMapper (pathDirname d))) st₁ h₁ with s | ⟨st₂, h₂⟩
      · rw [hjs] at h
        exact absurd h (by simp)
      · rw [hjs] at h
        dsimp only at h
        simp only [Except.ok.injEq] at h
        subst h
        have hpres₂ : ∀ k v, st.builtFiles.lookup k = some v →
            st₂.builtFiles.lookup k = some v := fun k v hk =>
          (jsLoop_pres _ st₁ h₁).1 st₂ h₂ hjs k v
            ((cssLoop_pres _ st html).1 st₁ h₁ hcs k v hk)
        by_cases hm : cfg.html.minify = true
        · rw [if_pos hm]
          refine ⟨?_, ?_, ?_⟩
          · intro k v hkd hk
            show (setKey (setKey st₂.builtFiles d _) d _).lookup k = some v
            rw [lookup_setKey_ne _ _ _ _ hkd, lookup_setKey_ne _ _ _ _ hkd]
            exact hpres₂ k v hk
          · intro k hk
            by_cases hkd : k = d
            · subst hkd
              show ((setKey (setKey st₂.builtFiles k _) k _).lookup k).isSome
              rw [lookup_setKey]
              rfl
            · obtain ⟨v, hv⟩ := Option.isSome_iff_exists.mp hk
              show ((setKey (setKey st₂.builtFiles d _) d _).lookup k).isSome
              rw [lookup_setKey_ne _ _ _ _ hkd, lookup_setKey_ne _ _ _ _ hkd,
                hpres₂ k v hv]
              rfl
          · show ((setKey (setKey st₂.builtFiles d _) d _).lookup d).isSome
            rw [lookup_setKey]
            rfl
        · rw [if_neg hm]
          refine ⟨?_, ?_, ?_⟩
          · intro k v hkd hk
            show (setKey st₂.builtFiles d _).lookup k = some v
            rw [lookup_setKey_ne _ _ _ _ hkd]
            exact hpres₂ k v hk
          · intro k hk
            by_cases hkd : k = d
            · subst hkd
              show ((setKey st₂.builtFiles k _).lookup k).isSome
              rw [lookup_setKey]
              rfl
            · obtain ⟨v, hv⟩ := Option.isSome_iff_exists.mp hk
              show ((setKey st₂.builtFiles d _).lookup k).isSome
              rw [lookup_setKey_ne _ _ _ _ hkd, hpres₂ k v hv]
              rfl
          · show ((setKey st₂.builtFiles d _).lookup d).isSome
            rw [lookup_setKey]
            rfl

theorem processDoc_error_pres {env : BuildEnv} {cfg : BSTConfig} {st : BState}
    {d : String} {st' : BState} (h : processDoc env cfg st d = .error st') :
    ∀ k v, st.builtFiles.lookup k = some v → st'.builtFiles.lookup k = some v := by
  unfold processDoc at h
  rcases hg : getHTML env d with _ | html
  · rw [hg] at h
    simp only [Except.error.injEq] at h
    subst h
    exact fun k v hk => hk
  · rw [hg] at h
    dsimp only at h
    rcases hcs : cssLoop env cfg (pathDirname d)
        ((getCSSImports html).map (importMapper (pathDirname d))) st html with s | ⟨st₁, h₁⟩
    · rw [hcs] at h
      simp only [Except.error.injEq] at h
      subst h
      exact (cssLoop_pres _ st html).2 s hcs
    · rw [hcs] at h
      dsimp only at h
      rcases hjs : jsLoop env cfg (pathDirname d)
          ((getJSImports html).map (importMapper (pathDirname d))) st₁ h₁ with s | ⟨st₂, h₂⟩
      · rw [hjs] at h
        simp only [Except.error.injEq] at h
        subst h
        exact fun k v hk =>
          (jsLoop_pres _ st₁ h₁).2 s hjs k v ((cssLoop_pres _ st html).1 st₁ h₁ hcs k v hk)
      · rw [hjs] at h
        exact absurd h (by simp)

theorem buildLoop_ok_pres {env : BuildEnv} {cfg : BSTConfig} :
    ∀ (docs : List String) (st st' : BState), buildLoop env cfg docs st = .ok st' →
    (∀ k v, k ∉ docs → st.builtFiles.lookup k = some v → st'.builtFiles.lookup k = some v)
    ∧ (∀ k, (st.builtFiles.lookup k).isSome → (st'.builtFiles.lookup k).isSome)
    ∧ (∀ p ∈ docs, (st'.builtFiles.lookup p).isSome)
  | [], st, st', h => by
    simp only [buildLoop, Except.ok.injEq] at h
    subst h
    exact ⟨fun k v _ hk => hk, fun k hk => hk, by simp⟩
  | p :: rest, st, st', h => by
    rw [buildLoop] at h
    rcases hp : processDoc env cfg st p with s | s₁
    · rw [hp] at h
      exact absurd h (by simp)
    · rw [hp] at h
      obtain ⟨ih1, ih2, ih3⟩ := buildLoop_ok_pres rest s₁ st' h
      obtain ⟨p1, p2, p3⟩ := processDoc_ok_pres hp
      refine ⟨?_, ?_, ?_⟩
      · intro k v hk hkv
        have hkp : k ≠ p := fun he => hk (he ▸ List.mem_cons_self p rest)
        have hkrest : k ∉ rest := fun he => hk (List.mem_cons_of_mem p he)
        exact ih1 k v hkrest (p1 k v hkp hkv)
      · exact fun k hk => ih2 k (p2 k hk)
      · intro q hq
        rcases List.mem_cons.mp hq with rfl | hq
        · exact ih2 q p3
        · exact ih3 q hq

theorem buildLoop_error_pres {env : BuildEnv} {cfg : BSTConfig} :
    ∀ (docs : List String) (st st' : BState), buildLoop env cfg docs st = .error st' →
    ∀ k v, st.builtFiles.lookup k = some v →
      (k ∉ docs → st'.builtFiles.lookup k = some v)
      ∧ (st'.builtFiles.lookup k).isSome
  | [], st, st', h => by
    exact absurd h (by simp [buildLoop])
  | p :: rest, st, st', h => by
    rw [buildLoop] at h
    rcases hp : processDoc env cfg st p with s | s₁
    · rw [hp] at h
      simp only [Except.error.injEq] at h
      subst h
      intro k v hk
      have := processDoc_error_pres hp k v hk
      exact ⟨fun _ => this, by rw [this]; rfl⟩
    · rw [hp] at h
      intro k v hk
      obtain ⟨q1, q2, -⟩ := processDoc_ok_pres hp
      constructor
      · intro hnk
        have hkp : k ≠ p := fun he => hnk (he ▸ List.mem_cons_self p rest)
        have hkrest : k ∉ rest := fun he => hnk (List.mem_cons_of_mem p he)
        exact (buildLoop_error_pres rest s₁ st' h k v (q1 k v hkp hk)).1 hkrest
      · obtain ⟨v', hv'⟩ := Option.isSome_iff_exists.mp (q2 k (by rw [hk]; rfl))
        exact (buildLoop_error_pres rest s₁ st' h k v' hv').2

theorem buildLoop_append (env : BuildEnv) (cfg : BSTConfig) :
    ∀ (l₁ l₂ : List String) (st : BState),
    buildLoop env cfg (l₁ ++ l₂) st =
      match buildLoop env cfg l₁ st with
      | .error s => .error s
      | .ok s => buildLoop env cfg l₂ s
  | [], l₂, st => by simp [buildLoop]
  | p :: rest, l₂, st => by
    rw [List.cons_append, buildLoop]
    rcases hp : processDoc env cfg st p with s | s₁
    · simp [buildLoop, hp]
    · simp only [buildLoop, hp]
      exact buildLoop_append env cfg rest l₂ s₁

/-- **C1, counterexample.** A two-document build in which the second
document's stylesheet fails to compile: the first document was fully
processed and sits in the in-memory `builtFiles` map, but the run writes
*nothing* — `errorHandler` exits the process before the single
end-of-build write phase, so the first document is not written either,
contrary to the claim. -/
theorem c1_nothing_written_counterexample :
    runBuild
        ⟨fun p => if p == "a.html" then some [] else
            if p == "b.html" then
              some [HNode.elem "link" [("rel", "stylesheet"), ("href", "x.scss")] []]
            else none,
          fun _ _ => .error "x.scss not found", fun _ _ _ => .ok "js",
          fun _ => "SER", fun s => s, fun _ => "raw"⟩
        ⟨"src", "dist", false, ⟨false⟩, ⟨false, false, false⟩, ⟨false⟩⟩
        ["a.html", "b.html"] ["a.html", "b.html", "x.scss"] = none
    ∧ ∃ st, buildLoop
        ⟨fun p => if p == "a.html" then some [] else
            if p == "b.html" then
              some [HNode.elem "link" [("rel", "stylesheet"), ("href", "x.scss")] []]
            else none,
          fun _ _ => .error "x.scss not found", fun _ _ _ => .ok "js",
          fun _ => "SER", fun s => s, fun _ => "raw"⟩
        ⟨"src", "dist", false, ⟨false⟩, ⟨false, false, false⟩, ⟨false⟩⟩
        ["a.html", "b.html"] initState = .error st
      ∧ (st.builtFiles.lookup "a.html").isSome :=
  ⟨rfl, ⟨_, rfl, rfl⟩⟩

/-- **C1 (amended).** If processing any document fails at any pipeline
stage, the build halts before processing later documents (the result does
not depend on the remaining document list), every document fully
processed before the failure remains in the in-memory output map at the
moment of abort, but *nothing* is written to the destination: the abort
(`process.exit(1)` in `errorHandler`) fires before the single
end-of-build write phase. -/
theorem c1_abort_semantics :
    ∀ (env : BuildEnv) (cfg : BSTConfig) (pre post : List String) (d : String)
      (st₀ st₁ : BState) (allFiles : List String),
      buildLoop env cfg pre initState = .ok st₀ →
      processDoc env cfg st₀ d = .error st₁ →
      buildLoop env cfg (pre ++ d :: post) initState = .error st₁
      ∧ runBuild env cfg (pre ++ d :: post) allFiles = none
      ∧ (∀ p ∈ pre, (st₁.builtFiles.lookup p).isSome) := by
  intro env cfg pre post d st₀ st₁ allFiles hpre hfail
  have hloop : buildLoop env cfg (pre ++ d :: post) initState = .error st₁ := by
    rw [buildLoop_append env cfg pre (d :: post) initState, hpre]
    dsimp only
    rw [buildLoop, hfail]
  refine ⟨hloop, ?_, ?_⟩
  · rw [runBuild, hloop]
  · intro p hp
    have hin : (st₀.builtFiles.lookup p).isSome :=
      (buildLoop_ok_pres pre initState st₀ hpre).2.2 p hp
    obtain ⟨v, hv⟩ := Option.isSome_iff_exists.mp hin
    rw [processDoc_error_pres hfail p v hv]
    rfl

/-- Witness for C1 (amended): the first document processed, the second
aborting, a third never looked at. -/
theorem c1_abort_semantics_witness :
    buildLoop
        ⟨fun p => if p == "a.html" then some [] else
            if p == "b.html" then
              some [HNode.elem "link" [("rel", "stylesheet"), ("href", "y.scss")] []]
            else none,
          fun _ _ => .error "y.scss not found", fun _ _ _ => .ok "js",
          fun _ => "S", fun s => s, fun _ => "raw"⟩
        ⟨"src", "dist", false, ⟨false⟩, ⟨false, false, false⟩, ⟨false⟩⟩
        (["a.html"] ++ "b.html" :: ["c.html"]) initState
      = .error ⟨[("a.html", "S")], [.css "y.css" "y.scss" false]⟩
    ∧ runBuild
        ⟨fun p => if p == "a.html" then some [] else
            if p == "b.html" then
              some [HNode.elem "link" [("rel", "stylesheet"), ("href", "y.scss")] []]
            else none,
          fun _ _ => .error "y.scss not found", fun _ _ _ => .ok "js",
          fun _ => "S", fun s => s, fun _ => "raw"⟩
        ⟨"src", "dist", false, ⟨false⟩, ⟨false, false, false⟩, ⟨false⟩⟩
        (["a.html"] ++ "b.html" :: ["c.html"]) ["a.html"] = none
    ∧ ∀ p ∈ ["a.html"],
        ((⟨[("a.html", "S")], [.css "y.css" "y.scss" false]⟩ : BState).builtFiles.lookup p).isSome :=
  c1_abort_semantics _ _ ["a.html"] ["c.html"] "b.html" ⟨[("a.html", "S")], []⟩
    ⟨[("a.html", "S")], [.css "y.css" "y.scss" false]⟩ ["a.html"] rfl rfl

/-! ## C2: the minify flag handed to the script transform -/

/-- The failing configuration: `css.minify = false`, `js.minify = true`. -/
def cfgJsExample : BSTConfig :=
  ⟨"src", "dist", false, ⟨false⟩, ⟨false, false, false⟩, ⟨true⟩⟩

/-- A build with one document referencing one script. -/
def envJsExample : BuildEnv :=
  ⟨fun p => if p == "i.html" then some [HNode.elem "script" [("src", "app.ts")] []]
      else none,
    fun _ _ => .ok "css", fun _ _ _ => .ok "js",
    fun _ => "S", fun s => s, fun _ => "raw"⟩

/-- **C2.** `src/build.ts` line 59 passes `config.css.minify` — not
`config.js.minify` — as the minify option of `transpileJS`: with
`css.minify = false` and `js.minify = true`, the single script
compilation of the build is invoked with minify `false`. -/
theorem c2_js_minify_flag :
    (stateOf (buildLoop envJsExample cfgJsExample ["i.html"] initState)).calls
      = [.js "app.js" "app.ts" "src" false]
    ∧ cfgJsExample.css.minify = false
    ∧ cfgJsExample.js.minify = true
    ∧ cfgJsExample.css.minify ≠ cfgJsExample.js.minify :=
  ⟨rfl, rfl, rfl, by decide⟩

/-! ## C6: at-most-one compilation per computed output path -/

/-- Invariant of the orchestrator state: the output paths of the
transform invocations made so far are pairwise distinct, and each of them
is a key of `builtFiles`. -/
def CallsInv (st : BState) : Prop :=
  (st.calls.map TransformCall.outPath).Nodup
  ∧ ∀ c ∈ st.calls, (st.builtFiles.lookup c.outPath).isSome

theorem callsInv_init : CallsInv initState :=
  ⟨List.nodup_nil, fun c hc => absurd hc (List.not_mem_nil c)⟩

theorem nodup_calls_concat {st : BState} (hinv : CallsInv st) (c : TransformCall)
    (hc : (st.builtFiles.lookup c.outPath).isSome = false) :
    ((st.calls ++ [c]).map TransformCall.outPath).Nodup := by
  rw [List.map_append, List.nodup_append]
  refine ⟨hinv.1, List.nodup_singleton _, ?_⟩
  intro x hx hxc
  simp only [List.map_cons, List.map_nil, List.mem_singleton] at hxc
  subst hxc
  obtain ⟨c', hc', hc'eq⟩ := List.mem_map.mp hx
  rw [← hc'eq] at hc
  rw [hinv.2 c' hc'] at hc
  exact Bool.noConfusion hc

theorem cssStep_callsInv {env : BuildEnv} {cfg : BSTConfig} {base : String}
    {st : BState} {html : Html} {p : String} (hinv : CallsInv st) :
    (∀ st' html', cssStep env cfg base st html p = .ok (st', html') → CallsInv st')
    ∧ (∀ st', cssStep env cfg base st html p = .error st' →
        (st'.calls.map TransformCall.outPath).Nodup) := by
  constructor
  · intro st' html' h
    unfold cssStep at h
    by_cases hc : (st.builtFiles.lookup (builtCssPath p)).isSome
    · rw [if_pos hc] at h
      simp only [Except.ok.injEq, Prod.mk.injEq] at h
      obtain ⟨rfl, -⟩ := h
      exact hinv
    · rw [if_neg hc] at h
      rcases ht : env.transpileCSS p cfg.css.minify with e | content
      · rw [ht] at h
        exact absurd h (by simp)
      · rw [ht] at h
        simp only [Except.ok.injEq, Prod.mk.injEq] at h
        obtain ⟨rfl, -⟩ := h
        refine ⟨nodup_calls_concat hinv _ (Bool.eq_false_iff.mpr hc), ?_⟩
        intro c hcm
        rcases List.mem_append.mp hcm with hcm | hcm
        · obtain ⟨v, hv⟩ := Option.isSome_iff_exists.mp (hinv.2 c hcm)
          exact lookup_setKey_isSome _ _ _ _ (by rw [hv]; rfl)
        · rw [List.mem_singleton] at hcm
          subst hcm
          show ((setKey st.builtFiles (builtCssPath p) content).lookup (builtCssPath p)).isSome
          rw [lookup_setKey]
          rfl
  · intro st' h
    unfold cssStep at h
    by_cases hc : (st.builtFiles.lookup (builtCssPath p)).isSome
    · rw [if_pos hc] at h
      exact absurd h (by simp)
    · rw [if_neg hc] at h
      rcases ht : env.transpileCSS p cfg.css.minify with e | content
      · rw [ht] at h
        simp only [Except.error.injEq] at h
        subst h
        exact nodup_calls_concat hinv _ (Bool.eq_false_iff.mpr hc)
      · rw [ht] at h
        exact absurd h (by simp)

theorem jsStep_callsInv {env : BuildEnv} {cfg : BSTConfig} {base : String}
    {st : BState} {html : Html} {p : String} (hinv : CallsInv st) :
    (∀ st' html', jsStep env cfg base st html p = .ok (st', html') → CallsInv st')
    ∧ (∀ st', jsStep env cfg base st html p = .error st' →
        (st'.calls.map TransformCall.outPath).Nodup) := by
  constructor
  · intro st' html' h
    unfold jsStep at h
    by_cases hc : (st.builtFiles.lookup (builtJsPath p)).isSome
    · rw [if_pos hc] at h
      simp only [Except.ok.injEq, Prod.mk.injEq] at h
      obtain ⟨rfl, -⟩ := h
      exact hinv
    · rw [if_neg hc] at h
      rcases ht : env.transpileJS p cfg.source cfg.css.minify with e | content
      · rw [ht] at h
        exact absurd h (by simp)
      · rw [ht] at h
        simp only [Except.ok.injEq, Prod.mk.injEq] at h
        obtain ⟨rfl, -⟩ := h
        refine ⟨nodup_calls_concat hinv _ (Bool.eq_false_iff.mpr hc), ?_⟩
        intro c hcm
        rcases List.mem_append.mp hcm with hcm | hcm
        · obtain ⟨v, hv⟩ := Option.isSome_iff_exists.mp (hinv.2 c hcm)
          exact lookup_setKey_isSome _ _ _ _ (by rw [hv]; rfl)
        · rw [List.mem_singleton] at hcm
          subst hcm
          show ((setKey st.builtFiles (builtJsPath p) content).lookup (builtJsPath p)).isSome
          rw [lookup_setKey]
          rfl
  · intro st' h
    unfold jsStep at h
    by_cases hc : (st.builtFiles.lookup (builtJsPath p)).isSome
    · rw [if_pos hc] at h
      exact absurd h (by simp)
    · rw [if_neg hc] at h
      rcases ht : env.transpileJS p cfg.source cfg.css.minify with e | content
      · rw [ht] at h
        simp only [Except.error.injEq] at h
        subst h
        exact nodup_calls_concat hinv _ (Bool.eq_false_iff.mpr hc)
      · rw [ht] at h
        exact absurd h (by simp)

theorem cssLoop_callsInv {env : BuildEnv} {cfg : BSTConfig} {base : String} :
    ∀ (ps : List String) (st : BState) (html : Html), CallsInv st →
      (∀ st' html', cssLoop env cfg base ps st html = .ok (st', html') → CallsInv st')
      ∧ (∀ st', cssLoop env cfg base ps st html = .error st' →
          (st'.calls.map TransformCall.outPath).Nodup)
  | [], st, html, hinv => by
    constructor
    · intro st' html' h
      simp only [cssLoop, Except.ok.injEq, Prod.mk.injEq] at h
      obtain ⟨rfl, -⟩ := h
      exact hinv
    · intro st' h
      exact absurd h (by simp [cssLoop])
  | p :: rest, st, html, hinv => by
    constructor
    · intro st' html' h
      rw [cssLoop] at h
      rcases hs : cssStep env cfg base st html p with s | ⟨s₁, h₁⟩
      · rw [hs] at h
        exact absurd h (by simp)
      · rw [hs] at h
        exact (cssLoop_callsInv rest s₁ h₁ ((cssStep_callsInv hinv).1 s₁ h₁ hs)).1 st' html' h
    · intro st' h
      rw [cssLoop] at h
      rcases hs : cssStep env cfg base st html p with s | ⟨s₁, h₁⟩
      · rw [hs] at h
        simp only [Except.error.injEq] at h
        subst h
        exact (cssStep_callsInv hinv).2 s hs
      · rw [hs] at h
        exact (cssLoop_callsInv rest s₁ h₁ ((cssStep_callsInv hinv).1 s₁ h₁ hs)).2 st' h

theorem jsLoop_callsInv {env : BuildEnv} {cfg : BSTConfig} {base : String} :
    ∀ (ps : List String) (st : BState) (html : Html), CallsInv st →
      (∀ st' html', jsLoop env cfg base ps st html = .ok (st', html') → CallsInv st')
      ∧ (∀ st', jsLoop env cfg base ps st html = .error st' →
          (st'.calls.map TransformCall.outPath).Nodup)
  | [], st, html, hinv => by
    constructor
    · intro st' html' h
      simp only [jsLoop, Except.ok.injEq, Prod.mk.injEq] at h
      obtain ⟨rfl, -⟩ := h
      exact hinv
    · intro st' h
      exact absurd h (by simp [jsLoop])
  | p :: rest, st, html, hinv => by
    constructor
    · intro st' html' h
      rw [jsLoop] at h
      rcases hs : jsStep env cfg base st html p with s | ⟨s₁, h₁⟩
      · rw [hs] at h
        exact absurd h (by simp)
      · rw [hs] at h
        exact (jsLoop_callsInv rest s₁ h₁ ((jsStep_callsInv hinv).1 s₁ h₁ hs)).1 st' html' h
    · intro st' h
      rw [jsLoop] at h
      rcases hs : jsStep env cfg base st html p with s | ⟨s₁, h₁⟩
      · rw [hs] at h
        simp only [Except.error.injEq] at h
        subst h
        exact (jsStep_callsInv hinv).2 s hs
      · rw [hs] at h
        exact (jsLoop_callsInv rest s₁ h₁ ((jsStep_callsInv hinv).1 s₁ h₁ hs)).2 st' h

theorem processDoc_callsInv {env : BuildEnv} {cfg : BSTConfig} {st : BState}
    {d : String} (hinv : CallsInv st) :
    (∀ st', processDoc env cfg st d = .ok st' → CallsInv st')
    ∧ (∀ st', processDoc env cfg st d = .error st' →
        (st'.calls.map TransformCall.outPath).Nodup) := by
  constructor
  · intro st' h
    unfold processDoc at h
    rcases hg : getHTML env d with _ | html
    · rw [hg] at h
      exact absurd h (by simp)
    · rw [hg] at h
      dsimp only at h
      rcases hcs : cssLoop env cfg (pathDirname d)
          ((getCSSImports html).map (importMapper (pathDirname d))) st html with s | ⟨st₁, h₁⟩
      · rw [hcs] at h
        exact absurd h (by simp)
      · rw [hcs] at h
        dsimp only at h
        have hinv₁ : CallsInv st₁ := (cssLoop_callsInv _ st html hinv).1 st₁ h₁ hcs
        rcases hjs : jsLoop env cfg (pathDirname d)
            ((getJSImports html).map (importMapper (pathDirname d))) st₁ h₁ with s | ⟨st₂, h₂⟩
        · rw [hjs] at h
          exact absurd h (by simp)
        · rw [hjs] at h
          dsimp only at h
          simp only [Except.ok.injEq] at h
          subst h
          have hinv₂ : CallsInv st₂ := (jsLoop_callsInv _ st₁ h₁ hinv₁).1 st₂ h₂ hjs
          by_cases hm : cfg.html.minify = true
          · rw [if_pos hm]
            refine ⟨hinv₂.1, ?_⟩
            intro c hcm
            obtain ⟨v, hv⟩ := Option.isSome_iff_exists.mp (hinv₂.2 c hcm)
            exact lookup_setKey_isSome _ _ _ _
              (lookup_setKey_isSome _ _ _ _ (by rw [hv]; rfl))
          · rw [if_neg hm]
            refine ⟨hinv₂.1, ?_⟩
            intro c hcm
            obtain ⟨v, hv⟩ := Option.isSome_iff_exists.mp (hinv₂.2 c hcm)
            exact lookup_setKey_isSome _ _ _ _ (by rw [hv]; rfl)
  · intro st' h
    unfold processDoc at h
    rcases hg : getHTML env d with _ | html
    · rw [hg] at h
      simp only [Except.error.injEq] at h
      subst h
      exact hinv.1
    · rw [hg] at h
      dsimp only at h
      rcases hcs : cssLoop env cfg (pathDirname d)
          ((getCSSImports html).map (importMapper (pathDirname d))) st html with s | ⟨st₁, h₁⟩
      · rw [hcs] at h
        simp only [Except.error.injEq] at h
        subst h
        exact (cssLoop_callsInv _ st html hinv).2 s hcs
      · rw [hcs] at h
        dsimp only at h
        have hinv₁ : CallsInv st₁ := (cssLoop_callsInv _ st html hinv).1 st₁ h₁ hcs
        rcases hjs : jsLoop env cfg (pathDirname d)
            ((getJSImports html).map (importMapper (pathDirname d))) st₁ h₁ with s | ⟨st₂, h₂⟩
        · rw [hjs] at h
          simp only [Except.error.injEq] at h
          subst h
          exact (jsLoop_callsInv _ st₁ h₁ hinv₁).2 s hjs
        · rw [hjs] at h
          dsimp only at h
          exact absurd h (by simp)

theorem buildLoop_callsInv {env : BuildEnv} {cfg : BSTConfig} :
    ∀ (docs : List String) (st : BState), CallsInv st →
      ((stateOf (buildLoop env cfg docs st)).calls.map TransformCall.outPath).Nodup
  | [], st, hinv => by
    simpa [buildLoop, stateOf] using hinv.1
  | p :: rest, st, hinv => by
    rw [buildLoop]
    rcases hp : processDoc env cfg st p with s | s₁
    · simpa [stateOf] using (processDoc_callsInv hinv).2 s hp
    · exact buildLoop_callsInv rest s₁ ((processDoc_callsInv hinv).1 s₁ hp)

/-- **C6.** Across the whole build, compilation runs at most once per
computed output path — the multiset of transform invocations has
pairwise-distinct output paths, whether the build completes or aborts —
and once an output path is bound in `builtFiles` after some document, its
content survives the processing of any later documents whose own paths
differ from it (document paths end in `.html` and never collide with the
`.css`/`.js` asset keys), so a second document referencing an asset with
the same output path reuses the first compiled content. -/
theorem c6_output_dedup :
    (∀ (env : BuildEnv) (cfg : BSTConfig) (docs : List String),
      ((stateOf (buildLoop env cfg docs initState)).calls.map TransformCall.outPath).Nodup)
    ∧ (∀ (env : BuildEnv) (cfg : BSTConfig) (rest : List String) (st : BState)
        (k v : String), k ∉ rest → st.builtFiles.lookup k = some v →
        ((stateOf (buildLoop env cfg rest st)).builtFiles.lookup k) = some v) := by
  constructor
  · intro env cfg docs
    exact buildLoop_callsInv docs initState callsInv_init
  · intro env cfg rest st k v hk hv
    rcases h : buildLoop env cfg rest st with s | s
    · exact (buildLoop_error_pres rest st s h k v hv).1 hk
    · exact (buildLoop_ok_pres rest st s h).1 k v hk hv

/-- Two documents referencing different style sources (`x.scss` and
`x.sass`) that share the computed output path `x.css`. -/
def envDedupExample : BuildEnv :=
  ⟨fun p => if p == "a.html" then
        some [HNode.elem "link" [("rel", "stylesheet"), ("href", "x.scss")] []]
      else if p == "b.html" then
        some [HNode.elem "link" [("rel", "stylesheet"), ("href", "x.sass")] []]
      else none,
    fun p _ => .ok ("C:" ++ p), fun _ _ _ => .ok "js",
    fun _ => "S", fun s => s, fun _ => "raw"⟩

def cfgDedupExample : BSTConfig :=
  ⟨"src", "dist", false, ⟨false⟩, ⟨false, false, false⟩, ⟨false⟩⟩

/-- Witness for C6: in the two-document build both documents map their
asset to `x.css`; the invocation log has distinct output paths (so the
transform ran once), and the content compiled from the first source
(`C:x.scss`) survives the processing of the second document unchanged. -/
theorem c6_output_dedup_witness :
    ((stateOf (buildLoop envDedupExample cfgDedupExample ["a.html", "b.html"]
        initState)).calls.map TransformCall.outPath).Nodup
    ∧ ((stateOf (buildLoop envDedupExample cfgDedupExample ["b.html"]
        (stateOf (buildLoop envDedupExample cfgDedupExample ["a.html"]
          initState)))).builtFiles.lookup "x.css") = some "C:x.scss" :=
  ⟨c6_output_dedup.1 envDedupExample cfgDedupExample ["a.html", "b.html"],
   c6_output_dedup.2 envDedupExample cfgDedupExample ["b.html"]
     (stateOf (buildLoop envDedupExample cfgDedupExample ["a.html"] initState))
     "x.css" "C:x.scss" (by decide) rfl⟩

/-! ## C10: `.css` sources are compiled, then clobbered by the copy loop -/

/-- A path ending in `.css` matches the style-source pattern of the build
loop (its built path is itself) and matches neither preprocessed-style
suffix. -/
theorem css_ending_props (f : String) (pre : List Char)
    (hf : f.data = pre ++ ('.' :: 'c' :: 's' :: 's' :: [])) :
    sfx f ".css" = true ∧ sfx f ".scss" = false ∧ sfx f ".sass" = false
    ∧ builtCssPath f = f := by
  have hrev : f.data.reverse = 's' :: 's' :: 'c' :: '.' :: pre.reverse := by
    rw [hf, List.reverse_append]
    rfl
  have h1 : sfx f ".css" = true := by
    unfold sfx
    rw [hrev]
    rfl
  have h2 : sfx f ".scss" = false := by
    unfold sfx
    rw [hrev]
    simp
  have h3 : sfx f ".sass" = false := by
    unfold sfx
    rw [hrev]
    simp
  refine ⟨h1, h2, h3, ?_⟩
  unfold builtCssPath
  rw [h2, h3, h1]
  simp only [Bool.false_eq_true, if_false, if_true]
  unfold chop
  rw [hf]
  have hlen : (pre ++ ('.' :: 'c' :: 's' :: 's' :: [])).length - 4 = pre.length := by
    simp [List.length_append]
  rw [hlen, List.take_left]
  show String.mk (pre ++ ('.' :: 'c' :: 's' :: 's' :: [])) = f
  rw [← hf]

theorem extChars_append_css (B : List Char) :
    extChars (B ++ ('.' :: 'c' :: 's' :: 's' :: []))
      = if B.length = 0 then [] else '.' :: 'c' :: 's' :: 's' :: [] := by
  cases B with
  | nil => rfl
  | cons x xs =>
    unfold extChars
    have h1 : ((x :: xs) ++ ('.' :: 'c' :: 's' :: 's' :: [])).reverse
        = 's' :: 's' :: 'c' :: '.' :: (x :: xs).reverse := by
      rw [List.reverse_append]
      rfl
    rw [h1]
    have h2 : List.takeWhile (· ≠ '.') ('s' :: 's' :: 'c' :: '.' :: (x :: xs).reverse)
        = ['s', 's', 'c'] := rfl
    rw [h2]
    rw [if_pos (by simp only [List.length_cons, List.length_append]; omega)]
    simp

theorem baseChars_append_css (pre : List Char) :
    baseChars (pre ++ ('.' :: 'c' :: 's' :: 's' :: []))
      = (pre.reverse.takeWhile (· ≠ '/')).reverse ++ ('.' :: 'c' :: 's' :: 's' :: []) := by
  unfold baseChars
  rw [List.reverse_append]
  have h2 : List.takeWhile (· ≠ '/')
      (('.' :: 'c' :: 's' :: 's' :: []).reverse ++ pre.reverse)
      = 's' :: 's' :: 'c' :: '.' :: (pre.reverse.takeWhile (· ≠ '/')) := rfl
  rw [h2]
  simp

/-- A `.css` file passes the pass-through copy filter: its `extname` is
either `""` (basename `.css`) or `.css`, and neither matches the
`.html`/`.sass`/`.scss`/`.ts`/`.tsx` exclusion pattern. -/
theorem copyFilter_css (f : String) (pre : List Char)
    (hf : f.data = pre ++ ('.' :: 'c' :: 's' :: 's' :: [])) : copyFilter f = true := by
  have hb : baseChars f.data
      = (pre.reverse.takeWhile (· ≠ '/')).reverse ++ ('.' :: 'c' :: 's' :: 's' :: []) := by
    rw [hf]
    exact baseChars_append_css pre
  rcases hBnil : (pre.reverse.takeWhile (· ≠ '/')).reverse with _ | ⟨y, ys⟩
  · have hext : extname f = "" := by
      unfold extname
      rw [hb, hBnil]
      rfl
    unfold copyFilter
    rw [hext]
    rfl
  · have hext : extname f = ".css" := by
      unfold extname
      rw [hb, hBnil, extChars_append_css]
      simp
    unfold copyFilter
    rw [hext]
    rfl

theorem cssLoop_presence {env : BuildEnv} {cfg : BSTConfig} {base : String} :
    ∀ (ps : List String) (st : BState) (html : Html) (st' : BState) (html' : Html),
      cssLoop env cfg base ps st html = .ok (st', html') →
      ∀ p ∈ ps, ((st'.builtFiles.lookup (builtCssPath p)).isSome)
  | [], _, _, _, _, _ => by simp
  | q :: rest, st, html, st', html', h => by
    rw [cssLoop] at h
    rcases hs : cssStep env cfg base st html q with s | ⟨s₁, h₁⟩
    · rw [hs] at h
      exact absurd h (by simp)
    · rw [hs] at h
      intro p hp
      rcases List.mem_cons.mp hp with rfl | hp
      · have hq : ((s₁.builtFiles.lookup (builtCssPath p)).isSome) := by
          unfold cssStep at hs
          by_cases hc : (st.builtFiles.lookup (builtCssPath p)).isSome
          · rw [if_pos hc] at hs
            simp only [Except.ok.injEq, Prod.mk.injEq] at hs
            obtain ⟨rfl, -⟩ := hs
            exact hc
          · rw [if_neg hc] at hs
            rcases ht : env.transpileCSS p cfg.css.minify with e | content
            · rw [ht] at hs
              exact absurd hs (by simp)
            · rw [ht] at hs
              simp only [Except.ok.injEq, Prod.mk.injEq] at hs
              obtain ⟨rfl, -⟩ := hs
              show ((setKey st.builtFiles (builtCssPath p) content).lookup
                (builtCssPath p)).isSome
              rw [lookup_setKey]
              rfl
        obtain ⟨v, hv⟩ := Option.isSome_iff_exists.mp hq
        rw [(cssLoop_pres rest s₁ h₁).1 st' html' h _ v hv]
        rfl
      · exact cssLoop_presence rest s₁ h₁ st' html' h p hp

theorem processDoc_css_built {env : BuildEnv} {cfg : BSTConfig} {st : BState}
    {d : String} {st' : BState} (h : processDoc env cfg st d = .ok st')
    {html : Html} (hhtml : getHTML env d = some html) :
    ∀ f ∈ (getCSSImports html).map (importMapper (pathDirname d)),
      ((st'.builtFiles.lookup (builtCssPath f)).isSome) := by
  intro f hf
  unfold processDoc at h
  rw [hhtml] at h
  dsimp only at h
  rcases hcs : cssLoop env cfg (pathDirname d)
      ((getCSSImports html).map (importMapper (pathDirname d))) st html with s | ⟨st₁, h₁⟩
  · rw [hcs] at h
    exact absurd h (by simp)
  · rw [hcs] at h
    dsimp only at h
    have h1 : ((st₁.builtFiles.lookup (builtCssPath f)).isSome) :=
      cssLoop_presence _ st html st₁ h₁ hcs f hf
    rcases hjs : jsLoop env cfg (pathDirname d)
        ((getJSImports html).map (importMapper (pathDirname d))) st₁ h₁ with s | ⟨st₂, h₂⟩
    · rw [hjs] at h
      exact absurd h (by simp)
    · rw [hjs] at h
      dsimp only at h
      simp only [Except.ok.injEq] at h
      subst h
      obtain ⟨v, hv⟩ := Option.isSome_iff_exists.mp h1
      have h2 : st₂.builtFiles.lookup (builtCssPath f) = some v :=
        (jsLoop_pres _ st₁ h₁).1 st₂ h₂ hjs _ v hv
      by_cases hm : cfg.html.minify = true
      · rw [if_pos hm]
        exact lookup_setKey_isSome _ _ _ _
          (lookup_setKey_isSome _ _ _ _ (by rw [h2]; rfl))
      · rw [if_neg hm]
        exact lookup_setKey_isSome _ _ _ _ (by rw [h2]; rfl)

theorem buildLoop_css_built {env : BuildEnv} {cfg : BSTConfig} :
    ∀ (docs : List String) (st st' : BState),
      buildLoop env cfg docs st = .ok st' →
      ∀ d ∈ docs, ∀ html, getHTML env d = some html →
      ∀ f ∈ (getCSSImports html).map (importMapper (pathDirname d)),
        ((st'.builtFiles.lookup (builtCssPath f)).isSome)
  | [], _, _, _ => by simp
  | q :: rest, st, st', h => by
    rw [buildLoop] at h
    rcases hp : processDoc env cfg st q with s | s₁
    · rw [hp] at h
      exact absurd h (by simp)
    · rw [hp] at h
      intro d hd html hhtml f hf
      rcases List.mem_cons.mp hd with rfl | hd
      · exact (buildLoop_ok_pres rest s₁ st' h).2.1 _
          (processDoc_css_built hp hhtml f hf)
      · exact buildLoop_css_built rest s₁ st' h d hd html hhtml f hf

theorem foldl_no_hit (p : String) :
    ∀ (ws : List (String × String)) (acc : Option String),
      (∀ w ∈ ws, (w.1 == p) = false) →
      List.foldl (fun acc w => if w.1 == p then some w.2 else acc) acc ws = acc
  | [], _, _ => rfl
  | w :: rest, acc, h => by
    rw [List.foldl_cons, if_neg (by rw [h w (List.mem_cons_self w rest)]; exact
      Bool.false_ne_true)]
    exact foldl_no_hit p rest acc (fun w' hw' => h w' (List.mem_cons_of_mem w hw'))

theorem lastWrite_copy (env : BuildEnv) (cfg : BSTConfig) (f : String) :
    ∀ (files : List String) (acc : Option String), f ∈ files → copyFilter f = true →
      (∀ g ∈ files, destPath cfg g = destPath cfg f → g = f) →
      List.foldl (fun acc w => if w.1 == destPath cfg f then some w.2 else acc) acc
        ((files.filter copyFilter).map (fun g => (destPath cfg g, env.fileContent g)))
        = some (env.fileContent f)
  | [], _, hmem, _, _ => absurd hmem (List.not_mem_nil f)
  | g :: rest, acc, hmem, hcf, hinj => by
    by_cases hg : copyFilter g = true
    · rw [List.filter_cons_of_pos hg, List.map_cons, List.foldl_cons]
      by_cases hfr : f ∈ rest
      · exact lastWrite_copy env cfg f rest _ hfr hcf
          (fun g' hg' => hinj g' (List.mem_cons_of_mem g hg'))
      · have hfg : f = g := by
          rcases List.mem_cons.mp hmem with h | h
          · exact h
          · exact absurd h hfr
        subst hfg
        rw [if_pos (beq_self_eq_true _)]
        apply foldl_no_hit
        intro w hw
        obtain ⟨g', hg', rfl⟩ := List.mem_map.mp hw
        have hg'rest : g' ∈ rest := List.mem_of_mem_filter hg'
        apply beq_eq_false_iff_ne.mpr
        intro hdp
        exact hfr (hinj g' (List.mem_cons_of_mem f hg'rest) hdp ▸ hg'rest)
    · rw [List.filter_cons_of_neg hg]
      have hfr : f ∈ rest := by
        rcases List.mem_cons.mp hmem with rfl | h
        · exact absurd hcf hg
        · exact h
      exact lastWrite_copy env cfg f rest acc hfr hcf
        (fun g' hg' => hinj g' (List.mem_cons_of_mem g hg'))

/-- **C10.** A `.css` source referenced as a stylesheet by some document
in a successful build is compiled through the style transform into the
output map under its own path (the `.css` extension matches the
style-source pattern, so the built path is the source path), passes the
pass-through copy filter, and the end-of-build copy loop — which runs
after the `builtFiles` write loop — leaves the destination holding the
raw source content, not the compiled output. -/
theorem c10_css_passthrough :
    ∀ (env : BuildEnv) (cfg : BSTConfig) (docs allFiles : List String) (d : String)
      (html : Html) (f : String) (st : BState) (pre : List Char),
      buildLoop env cfg docs initState = .ok st →
      d ∈ docs → getHTML env d = some html →
      f ∈ (getCSSImports html).map (importMapper (pathDirname d)) →
      f.data = pre ++ ('.' :: 'c' :: 's' :: 's' :: []) →
      f ∈ allFiles →
      (∀ g ∈ allFiles, destPath cfg g = destPath cfg f → g = f) →
      builtCssPath f = f
      ∧ (st.builtFiles.lookup f).isSome
      ∧ copyFilter f = true
      ∧ runBuild env cfg docs allFiles = some (writePhase env cfg st allFiles)
      ∧ lastWrite (writePhase env cfg st allFiles) (destPath cfg f)
          = some (env.fileContent f) := by
  intro env cfg docs allFiles d html f st pre hbuild hd hhtml hf hfd hmem hinj
  have hid : builtCssPath f = f := (css_ending_props f pre hfd).2.2.2
  have hpresent : (st.builtFiles.lookup f).isSome := by
    have := buildLoop_css_built docs initState st hbuild d hd html hhtml f hf
    rwa [hid] at this
  have hcf : copyFilter f = true := copyFilter_css f pre hfd
  refine ⟨hid, hpresent, hcf, ?_, ?_⟩
  · rw [runBuild, hbuild]
  · unfold lastWrite writePhase
    rw [List.foldl_append]
    exact lastWrite_copy env cfg f allFiles _ hmem hcf hinj

/-- One document referencing the raw stylesheet `s.css`, present on disk
next to it. -/
def envCssExample : BuildEnv :=
  ⟨fun p => if p == "i.html" then
        some [HNode.elem "link" [("rel", "stylesheet"), ("href", "s.css")] []]
      else none,
    fun p _ => .ok ("compiled:" ++ p), fun _ _ _ => .ok "js",
    fun _ => "S", fun s => s, fun p => "raw:" ++ p⟩

def cfgCssExample : BSTConfig :=
  ⟨"src", "dist", false, ⟨false⟩, ⟨false, false, false⟩, ⟨false⟩⟩

/-- Witness for C10: the concrete one-document build in which `s.css` is
compiled into the map and the copy loop's write wins at its destination. -/
theorem c10_css_passthrough_witness :
    builtCssPath "s.css" = "s.css"
    ∧ (((⟨[("s.css", "compiled:s.css"), ("i.html", "S")],
          [.css "s.css" "s.css" false]⟩ : BState).builtFiles.lookup "s.css")).isSome
    ∧ copyFilter "s.css" = true
    ∧ runBuild envCssExample cfgCssExample ["i.html"] ["i.html", "s.css"]
        = some (writePhase envCssExample cfgCssExample
            ⟨[("s.css", "compiled:s.css"), ("i.html", "S")],
              [.css "s.css" "s.css" false]⟩ ["i.html", "s.css"])
    ∧ lastWrite (writePhase envCssExample cfgCssExample
          ⟨[("s.css", "compiled:s.css"), ("i.html", "S")],
            [.css "s.css" "s.css" false]⟩ ["i.html", "s.css"])
        (destPath cfgCssExample "s.css")
        = some (envCssExample.fileContent "s.css") :=
  c10_css_passthrough envCssExample cfgCssExample ["i.html"] ["i.html", "s.css"]
    "i.html" [HNode.elem "link" [("rel", "stylesheet"), ("href", "s.css")] []]
    "s.css"
    ⟨[("s.css", "compiled:s.css"), ("i.html", "S")], [.css "s.css" "s.css" false]⟩
    ['s'] rfl (by decide) rfl (by decide) (by decide) (by decide) (by decide)

end BST
